import Mathlib

/-!
Verification development for the pyQCD `DataSet` resampling engine
(`pyQCD/core/dataset.py`).

Measurement values are embedded at exact rational arithmetic (`ℚ`); the
archive's stored data is a `List ℚ` indexed from `0` (a scalar archive,
`num_data = data.length`).  Fallible Python code is embedded in
`Except DSErr`, and the unbounded cache-miss retry recursion of
`_get_bootstrap_cache_datum` / `_get_jackknife_cache_datum` is embedded
with an explicit fuel parameter: `DSErr.noFuel` marks a computation that
keeps recursing past the supplied fuel.
-/

namespace DataSet

/-- Python exception kinds raised by the dataset module. -/
inductive DSErr where
  | typeError
  | valueError
  | keyError
  | indexError
  | zeroDivisionError
  | nameError
  | notImplementedError
  | noFuel
deriving DecidableEq, Repr

instance {ε α : Type} [DecidableEq ε] [DecidableEq α] : DecidableEq (Except ε α) :=
  fun x y =>
    match x, y with
    | .ok u, .ok v => if h : u = v then .isTrue (by rw [h]) else .isFalse (by simp [h])
    | .error u, .error v => if h : u = v then .isTrue (by rw [h]) else .isFalse (by simp [h])
    | .ok _, .error _ => .isFalse (by simp)
    | .error _, .ok _ => .isFalse (by simp)

/-- Bin-count computation used throughout the source:
`num_bins = num_data / binsize` (integer division), plus one when
`num_data % binsize > 0`. -/
def num_bins (count binsize : Nat) : Nat :=
  count / binsize + (if count % binsize > 0 then 1 else 0)

/-- `DataSet.get_datum(index)`: extracting a missing archive entry
raises (a `KeyError` from `zipfile.extract`); a stored entry
deserialises to its value. -/
def get_datum (data : List ℚ) (index : Nat) : Except DSErr ℚ :=
  match data.get? index with
  | some v => .ok v
  | none => .error .keyError

/-- `DataSet._get_bin(binsize, binnum)`: start from
`get_datum(binsize*binnum)`, accumulate `get_datum(i)` for `i` in
`[binsize*binnum + 1, min(binsize*(binnum+1), num_data))`, and divide by
the nominal `binsize` (also for a truncated final bin). -/
def get_bin (data : List ℚ) (binsize binnum : Nat) : Except DSErr ℚ := do
  let out ← get_datum data (binsize * binnum)
  -- first_datum = binsize*binnum + 1; last_datum = binsize*(binnum+1),
  -- clipped to num_data; the loop accumulates get_datum(i) for
  -- i in [first_datum, last_datum)
  let s ← (List.range (min (binsize * (binnum + 1)) data.length - (binsize * binnum + 1))).foldlM
      (fun acc k => do
        let v ← get_datum data (binsize * binnum + 1 + k)
        pure (acc + v)) out
  pure (s / (binsize : ℚ))

/-- Specification-side value of bin `binnum`, following the claim's
words: the sum of `get(i)` for `i` in
`[binsize*binnum, min(binsize*(binnum+1), count))`, divided by the
nominal `binsize`. -/
def binSpec (data : List ℚ) (binsize binnum : Nat) : ℚ :=
  (((List.range (min (binsize * (binnum + 1)) data.length - binsize * binnum)).map
      (fun k => data.getD (binsize * binnum + k) 0)).sum) / (binsize : ℚ)

theorem ok_bind {α β : Type} (a : α) (f : α → Except DSErr β) :
    (Except.ok a >>= f) = f a := rfl

theorem pure_eq_ok {α : Type} (a : α) : (pure a : Except DSErr α) = Except.ok a := rfl

theorem pure_bind_ex {α β : Type} (a : α) (f : α → Except DSErr β) :
    ((pure a : Except DSErr α) >>= f) = f a := rfl

theorem get_datum_ok (data : List ℚ) (i : Nat) (h : i < data.length) :
    get_datum data i = .ok (data.getD i 0) := by
  unfold get_datum
  rcases hq : data.get? i with _ | v
  · exact absurd (List.get?_eq_none.mp hq) (by omega)
  · have hv : data.getD i 0 = v := by
      rw [List.getD_eq_getElem?_getD, ← List.get?_eq_getElem?, hq]
      rfl
    rw [hv]

theorem foldlM_sum_ok (data : List ℚ) (start : Nat) :
    ∀ (n : Nat) (init : ℚ), (∀ k, k < n → start + k < data.length) →
      (List.range n).foldlM
          (fun acc k => do
            let v ← get_datum data (start + k)
            pure (acc + v)) init
        = Except.ok (init + ((List.range n).map (fun k => data.getD (start + k) 0)).sum) := by
  intro n
  induction n with
  | zero =>
      intro init _
      simp only [List.range_zero, List.foldlM_nil, List.map_nil, List.sum_nil, add_zero]
      rfl
  | succ m ih =>
      intro init h
      have hm : start + m < data.length := h m (by omega)
      rw [List.range_succ, List.foldlM_append, ih init (fun k hk => h k (by omega)), ok_bind]
      simp only [List.foldlM_cons, List.foldlM_nil, get_datum_ok data (start + m) hm, ok_bind,
        pure_eq_ok, List.map_append, List.map_cons, List.map_nil, List.sum_append, List.sum_cons,
        List.sum_nil, add_zero]
      rw [add_assoc]

theorem get_bin_ok (data : List ℚ) (binsize binnum : Nat)
    (hb : 1 ≤ binsize) (h : binsize * binnum < data.length) :
    get_bin data binsize binnum = .ok (binSpec data binsize binnum) := by
  have hmul : binsize * (binnum + 1) = binsize * binnum + binsize := by ring
  have hL1 : min (binsize * (binnum + 1)) data.length ≤ data.length := Nat.min_le_right _ _
  have hL2 : binsize * binnum < min (binsize * (binnum + 1)) data.length :=
    lt_min (by omega) h
  have hrange : ∀ k, k < min (binsize * (binnum + 1)) data.length - (binsize * binnum + 1) →
      binsize * binnum + 1 + k < data.length := by
    intro k hk; omega
  unfold get_bin
  rw [get_datum_ok data _ h, ok_bind,
    foldlM_sum_ok data (binsize * binnum + 1) _ _ hrange, ok_bind, pure_eq_ok]
  unfold binSpec
  have hsplit : min (binsize * (binnum + 1)) data.length - binsize * binnum
      = (min (binsize * (binnum + 1)) data.length - (binsize * binnum + 1)) + 1 := by
    omega
  rw [hsplit, List.range_succ_eq_map]
  simp only [List.map_cons, List.map_map, List.sum_cons, Nat.add_zero]
  have hmap : (List.range (min (binsize * (binnum + 1)) data.length - (binsize * binnum + 1))).map
        ((fun k => data.getD (binsize * binnum + k) 0) ∘ Nat.succ)
      = (List.range (min (binsize * (binnum + 1)) data.length - (binsize * binnum + 1))).map
        (fun k => data.getD (binsize * binnum + 1 + k) 0) := by
    apply List.map_congr_left
    intro a _
    simp only [Function.comp]
    congr 1
    omega
  rw [hmap]

theorem num_bins_eq_ceil (count binsize : Nat) (hb : 1 ≤ binsize) :
    num_bins count binsize = (count + binsize - 1) / binsize := by
  unfold num_bins
  have hmod := Nat.div_add_mod count binsize
  have hlt := Nat.mod_lt count (show 0 < binsize by omega)
  set q := count / binsize with hq
  set r := count % binsize with hr
  rcases Nat.eq_zero_or_pos r with h0 | h0
  · rw [if_neg (by omega)]
    have hc : count + binsize - 1 = binsize * q + (binsize - 1) := by omega
    rw [hc, Nat.mul_add_div (by omega), Nat.div_eq_of_lt (by omega)]
  · rw [if_pos (by omega)]
    have hbq : binsize * (q + 1) = binsize * q + binsize := by ring
    have hc : count + binsize - 1 = binsize * (q + 1) + (r - 1) := by omega
    rw [hc, Nat.mul_add_div (by omega), Nat.div_eq_of_lt (by omega)]

theorem num_bins_zero (binsize : Nat) : num_bins 0 binsize = 0 := by
  simp [num_bins]

theorem num_bins_pos (count binsize : Nat) (hc : 1 ≤ count) (_hb : 1 ≤ binsize) :
    1 ≤ num_bins count binsize := by
  unfold num_bins
  have hmod := Nat.div_add_mod count binsize
  rcases Nat.eq_zero_or_pos (count / binsize) with h0 | h0
  · rw [h0] at hmod ⊢
    have hr : count % binsize = count := by omega
    rw [if_pos (by omega)]
  · by_cases h1 : count % binsize > 0
    · rw [if_pos h1]; omega
    · rw [if_neg h1]; omega

theorem num_bins_le (count binsize : Nat) (hb : 1 ≤ binsize) :
    num_bins count binsize ≤ count := by
  unfold num_bins
  have hmod := Nat.div_add_mod count binsize
  rcases Nat.eq_zero_or_pos (count % binsize) with h0 | h0
  · rw [if_neg (by omega)]
    have := Nat.div_le_self count binsize
    omega
  · rw [if_pos (by omega)]
    by_cases hb1 : binsize = 1
    · subst hb1
      simp [Nat.mod_one] at h0
    · have hcpos : 0 < count := by omega
      have := Nat.div_lt_self hcpos (show 1 < binsize by omega)
      omega

theorem bin_start_lt (count binsize i : Nat) (hb : 1 ≤ binsize)
    (hi : i < num_bins count binsize) : binsize * i < count := by
  unfold num_bins at hi
  have hmod := Nat.div_add_mod count binsize
  have hlt := Nat.mod_lt count (show 0 < binsize by omega)
  rcases Nat.eq_zero_or_pos (count % binsize) with h0 | h0
  · rw [if_neg (by omega)] at hi
    have h1 : binsize * (i + 1) ≤ binsize * (count / binsize) :=
      Nat.mul_le_mul (Nat.le_refl binsize) (by omega)
    have h2 : binsize * (i + 1) = binsize * i + binsize := by ring
    omega
  · rw [if_pos (by omega)] at hi
    have h1 : binsize * i ≤ binsize * (count / binsize) :=
      Nat.mul_le_mul (Nat.le_refl binsize) (by omega)
    omega

/-- C2: for every archive, every `binSize ≥ 1`, and every `binIndex` with
`binSize*binIndex < count`, `_get_bin` returns the sum of the stored data
over `[binSize*binIndex, min(binSize*(binIndex+1), count))` divided by
the nominal `binSize` — also for a truncated final bin — and the number
of bins is `ceil(count / binSize)` (written `(count + binSize - 1) / binSize`
in natural-number division). -/
theorem c2_bin_accessor (data : List ℚ) (binsize binnum : Nat)
    (hb : 1 ≤ binsize) (h : binsize * binnum < data.length) :
    get_bin data binsize binnum = .ok (binSpec data binsize binnum)
    ∧ num_bins data.length binsize = (data.length + binsize - 1) / binsize :=
  ⟨get_bin_ok data binsize binnum hb h, num_bins_eq_ceil data.length binsize hb⟩

/-- Witness for C2 at the spec's own example: the 5-element scalar archive
`[1,2,3,4,5]` with `binSize = 2` has bins `[3/2, 7/2, 5/2]` — the
truncated final bin `[5]` is still divided by the nominal 2 — and
`ceil(5/2) = 3` bins. -/
theorem c2_bin_accessor_witness :
    ((1 ≤ 2 ∧ 2 * 2 < 5) ∧
      (get_bin [1, 2, 3, 4, 5] 2 2 = .ok (binSpec [1, 2, 3, 4, 5] 2 2)
        ∧ num_bins 5 2 = (5 + 2 - 1) / 2)) ∧
    get_bin [1, 2, 3, 4, 5] 2 0 = .ok (3 / 2)
    ∧ get_bin [1, 2, 3, 4, 5] 2 1 = .ok (7 / 2)
    ∧ get_bin [1, 2, 3, 4, 5] 2 2 = .ok (5 / 2) :=
  ⟨⟨⟨by decide, by decide⟩, c2_bin_accessor [1, 2, 3, 4, 5] 2 2 (by decide) (by decide)⟩,
    by norm_num [get_bin, get_datum, List.range_succ, ok_bind],
    by norm_num [get_bin, get_datum, List.range_succ, ok_bind],
    by norm_num [get_bin, get_datum, List.range_succ, ok_bind]⟩

theorem sum_range_shift (f : Nat → ℚ) (n : Nat) :
    ((List.range (n + 1)).map f).sum
      = f 0 + ((List.range n).map (fun k => f (1 + k))).sum := by
  rw [List.range_succ_eq_map]
  simp only [List.map_cons, List.map_map, List.sum_cons]
  congr 1
  congr 1
  apply List.map_congr_left
  intro a _
  simp only [Function.comp]
  congr 1
  omega

theorem foldlM_bins_ok (data : List ℚ) (binsize : Nat) (hb : 1 ≤ binsize) :
    ∀ (m : Nat) (init : ℚ), (∀ k, k < m → binsize * (1 + k) < data.length) →
      (List.range m).foldlM
          (fun acc i => do
            let v ← get_bin data binsize (1 + i)
            pure (acc + v)) init
        = Except.ok (init + ((List.range m).map (fun k => binSpec data binsize (1 + k))).sum) := by
  intro m
  induction m with
  | zero =>
      intro init _
      simp only [List.range_zero, List.foldlM_nil, List.map_nil, List.sum_nil, add_zero]
      rfl
  | succ m ih =>
      intro init h
      have hm : binsize * (1 + m) < data.length := h m (by omega)
      rw [List.range_succ, List.foldlM_append, ih init (fun k hk => h k (by omega)), ok_bind]
      simp only [List.foldlM_cons, List.foldlM_nil, get_bin_ok data binsize (1 + m) hb hm,
        ok_bind, pure_eq_ok, List.map_append, List.map_cons, List.map_nil, List.sum_append,
        List.sum_cons, List.sum_nil, add_zero]
      rw [add_assoc]

/-- Loop shared by `jackknife_datum`, `generate_jackknife_cache` and
`jackknife`: `data_sum = _get_bin(binsize, 0)`, then
`data_sum += _get_bin(binsize, i)` for `i` in `[1, num_bins)`. -/
def sum_bins (data : List ℚ) (binsize nb : Nat) : Except DSErr ℚ := do
  let first ← get_bin data binsize 0
  (List.range (nb - 1)).foldlM
    (fun acc i => do
      let v ← get_bin data binsize (1 + i)
      pure (acc + v)) first

/-- Specification-side sum of all bins. -/
def binsTotal (data : List ℚ) (binsize : Nat) : ℚ :=
  ((List.range (num_bins data.length binsize)).map (binSpec data binsize)).sum

theorem sum_bins_ok (data : List ℚ) (binsize : Nat) (hd : 1 ≤ data.length)
    (hb : 1 ≤ binsize) :
    sum_bins data binsize (num_bins data.length binsize) = .ok (binsTotal data binsize) := by
  have hnb := num_bins_pos data.length binsize hd hb
  unfold sum_bins
  rw [get_bin_ok data binsize 0 hb (by simp only [Nat.mul_zero]; omega), ok_bind]
  rw [foldlM_bins_ok data binsize hb _ _
    (fun k hk => bin_start_lt data.length binsize (1 + k) hb (by omega))]
  unfold binsTotal
  congr 1
  have hnb1 : num_bins data.length binsize = (num_bins data.length binsize - 1) + 1 := by
    omega
  conv_rhs => rw [hnb1, sum_range_shift (binSpec data binsize)]

/-- `DataSet.jackknife_datum(index, binsize)`: validate `binsize` and
`index`, sum all bins, and return
`(data_sum - _get_bin(binsize, index)) / (num_bins - 1)`; the division
raises `ZeroDivisionError` when `num_bins - 1 == 0`, and `_get_bin`
raises when `binsize * index` is past the stored data. -/
def jackknife_datum (data : List ℚ) (index binsize : Nat) : Except DSErr ℚ :=
  if binsize < 1 then .error .valueError
  else if data.length ≤ index then .error .valueError
  else do
    let s ← sum_bins data binsize (num_bins data.length binsize)
    let bi ← get_bin data binsize index
    if num_bins data.length binsize ≤ 1 then .error .zeroDivisionError
    else pure ((s - bi) / ((num_bins data.length binsize : ℚ) - 1))

/-- C3 (amended): `jackknife_datum(index, binSize)` raises a value error
when `binSize < 1` or `index ≥ count`; otherwise, provided `index` is
also a valid bin index (`index < numBins`) and `numBins ≥ 2`, it returns
`(sum of all bins - bin(index)) / (numBins - 1)` — computed directly,
without the resample cache.  (For the archive `[1,2,3,4]` with
`binSize = 1` the jackknife data are `[(10-1)/3, (10-2)/3, (10-3)/3,
(10-4)/3] = [3, 8/3, 7/3, 2]`, the total of all bins being 10, not 9.) -/
theorem c3_jackknife_datum (data : List ℚ) (index binsize : Nat) :
    (binsize = 0 → jackknife_datum data index binsize = .error .valueError)
    ∧ (data.length ≤ index → jackknife_datum data index binsize = .error .valueError)
    ∧ (1 ≤ binsize → index < num_bins data.length binsize →
        2 ≤ num_bins data.length binsize →
        jackknife_datum data index binsize
          = .ok ((binsTotal data binsize - binSpec data binsize index)
              / ((num_bins data.length binsize : ℚ) - 1))) := by
  refine ⟨?_, ?_, ?_⟩
  · intro h0
    unfold jackknife_datum
    rw [if_pos (by omega)]
  · intro hix
    unfold jackknife_datum
    by_cases hb : binsize < 1
    · rw [if_pos hb]
    · rw [if_neg hb, if_pos hix]
  · intro hb hi hnb2
    have hlen : 1 ≤ data.length := by
      rcases Nat.eq_zero_or_pos data.length with h0 | h0
      · rw [h0, num_bins_zero] at hnb2
        omega
      · exact h0
    have hile : index < data.length := by
      have := num_bins_le data.length binsize hb
      omega
    unfold jackknife_datum
    rw [if_neg (by omega), if_neg (by omega), sum_bins_ok data binsize hlen hb, ok_bind,
      get_bin_ok data binsize index hb (bin_start_lt data.length binsize index hb hi),
      ok_bind, if_neg (by omega), pure_eq_ok]

/-- Counterexample to C3 as stated: the claim (following the spec's §8
example) says the jackknife datum of the scalar archive `[1,2,3,4]` at
`index = 0`, `binSize = 1` is `(9-1)/3 = 8/3`; the code computes
`(10-1)/3 = 3`, because the total of all bins is `1+2+3+4 = 10`. -/
theorem c3_counterexample :
    jackknife_datum [1, 2, 3, 4] 0 1 = .ok 3 ∧ (3 : ℚ) ≠ 8 / 3 := by
  constructor
  · norm_num [jackknife_datum, sum_bins, get_bin, get_datum, num_bins,
      List.range_succ, ok_bind]
  · norm_num

/-- Witness for C3's amended theorem at `[1,2,3,4]`, `index = 1`,
`binSize = 1`: the code returns `(10-2)/3 = 8/3`. -/
theorem c3_witness :
    ((1 ≤ 1 ∧ 1 < num_bins 4 1 ∧ 2 ≤ num_bins 4 1) ∧
      jackknife_datum [1, 2, 3, 4] 1 1
        = .ok ((binsTotal [1, 2, 3, 4] 1 - binSpec [1, 2, 3, 4] 1 1)
            / ((num_bins 4 1 : ℚ) - 1))) ∧
    jackknife_datum [1, 2, 3, 4] 1 1 = .ok (8 / 3) := by
  refine ⟨⟨⟨by decide, by decide, by decide⟩, ?_⟩, ?_⟩
  · exact (c3_jackknife_datum [1, 2, 3, 4] 1 1).2.2 (by decide) (by decide) (by decide)
  · norm_num [jackknife_datum, sum_bins, get_bin, get_datum, num_bins,
      List.range_succ, ok_bind]

/-- Resample kind, the `bootstrap` / `jackknife` part of a cache name. -/
inductive RKind where
  | boot
  | jack
deriving DecidableEq, Repr

/-- Cache key standing for the name
`"{datatype}_{kind}_binsize{binsize}_{index}"`; the datatype name is
constant per archive, so the key is `(kind, binsize, index)`. -/
abbrev CKey : Type := RKind × Nat × Nat

/-- The in-memory resample cache `self.cache` (a Python dict).  New
bindings are consed at the front and `cacheGet` finds the most recent
one, matching dict overwrite semantics. -/
abbrev Cache : Type := List (CKey × ℚ)

def bootKey (binsize i : Nat) : CKey := (RKind.boot, binsize, i)

def jackKey (binsize i : Nat) : CKey := (RKind.jack, binsize, i)

/-- Dictionary access `self.cache[name]`: `some` on a hit, `none` for
the `KeyError` path. -/
def cacheGet : Cache → CKey → Option ℚ
  | [], _ => none
  | (k2, v) :: rest, k => if k = k2 then some v else cacheGet rest k

/-- Inner body shared by the bootstrap loops: from a drawn list of bin
indices, `new_datum = _get_bin(binsize, bins[0])`, then
`new_datum += _get_bin(binsize, b)` for the remaining draws, then
`new_datum /= len(bins)` (an empty draw list would fail on `bins[0]`). -/
def bootResample (data : List ℚ) (binsize : Nat) (bins : List Nat) : Except DSErr ℚ :=
  match bins with
  | [] => .error .indexError
  | b :: rest => do
    let first ← get_bin data binsize b
    let s ← rest.foldlM
        (fun acc bi => do
          let v ← get_bin data binsize bi
          pure (acc + v)) first
    pure (s / ((rest.length + 1 : Nat) : ℚ))

/-- The drawn bin indices for bootstrap iteration `i`:
`npr.randint(num_bins, size=num_bins)`, embedded as an explicit stream
`draws` of random values. -/
def draw_list (draws : Nat → Nat → Nat) (nb i : Nat) : List Nat :=
  (List.range nb).map (draws i)

/-- `DataSet.generate_bootstrap_cache(num_bootstraps, binsize)`: for each
`i < num_bootstraps`, draw `num_bins` bin indices, average those bins and
store the resample under the bootstrap key for `i`.  `npr.randint(0, ...)`
raises `ValueError` when `num_bins = 0`.  (The `MemoryError` disk
fall-back is not modelled: the embedding has no out-of-memory
condition.) -/
def generate_bootstrap_cache (data : List ℚ) (draws : Nat → Nat → Nat)
    (num_bootstraps binsize : Nat) (cache : Cache) : Except DSErr Cache :=
  if binsize < 1 then .error .valueError
  else
    (List.range num_bootstraps).foldlM
      (fun c i =>
        if num_bins data.length binsize = 0 then .error .valueError
        else do
          let v ← bootResample data binsize (draw_list draws (num_bins data.length binsize) i)
          pure ((bootKey binsize i, v) :: c)) cache

/-- `DataSet.generate_jackknife_cache(binsize)`: sum all bins, then store
`(data_sum - bin_i) / (num_bins - 1)` under the jackknife key for each
`i < num_bins`; the division raises `ZeroDivisionError` when
`num_bins = 1`.  (The `MemoryError` disk fall-back is not modelled.) -/
def generate_jackknife_cache (data : List ℚ) (binsize : Nat) (cache : Cache) :
    Except DSErr Cache :=
  if binsize < 1 then .error .valueError
  else do
    let s ← sum_bins data binsize (num_bins data.length binsize)
    (List.range (num_bins data.length binsize)).foldlM
      (fun c i => do
        let bi ← get_bin data binsize i
        if num_bins data.length binsize ≤ 1 then Except.error .zeroDivisionError
        else
          pure ((jackKey binsize i,
            (s - bi) / ((num_bins data.length binsize : ℚ) - 1)) :: c)) cache

/-- `DataSet._get_bootstrap_cache_datum(binsize, index, num_bootstraps)`:
memory cache, then disk cache, then regenerate the whole batch and retry
— an unbounded recursion in the source, embedded with explicit fuel. -/
def get_bootstrap_cache_datum : Nat → List ℚ → (Nat → Nat → Nat) → Cache → Cache →
    Nat → Nat → Nat → Except DSErr (ℚ × Cache)
  | 0, _, _, _, _, _, _, _ => .error .noFuel
  | fuel + 1, data, draws, cache, disk, binsize, index, num_bootstraps =>
    match cacheGet cache (bootKey binsize index) with
    | some v => .ok (v, cache)
    | none =>
      match cacheGet disk (bootKey binsize index) with
      | some v => .ok (v, cache)
      | none =>
        match generate_bootstrap_cache data draws num_bootstraps binsize cache with
        | .error e => .error e
        | .ok c2 => get_bootstrap_cache_datum fuel data draws c2 disk binsize index num_bootstraps

/-- `DataSet._get_jackknife_cache_datum(binsize, index)`: memory cache,
then disk cache, then regenerate and retry, with explicit fuel. -/
def get_jackknife_cache_datum : Nat → List ℚ → Cache → Cache → Nat → Nat →
    Except DSErr (ℚ × Cache)
  | 0, _, _, _, _, _ => .error .noFuel
  | fuel + 1, data, cache, disk, binsize, index =>
    match cacheGet cache (jackKey binsize index) with
    | some v => .ok (v, cache)
    | none =>
      match cacheGet disk (jackKey binsize index) with
      | some v => .ok (v, cache)
      | none =>
        match generate_jackknife_cache data binsize cache with
        | .error e => .error e
        | .ok c2 => get_jackknife_cache_datum fuel data c2 disk binsize index

/-- Specification-side value of bootstrap resample `i`: the average of
the `num_bins` drawn bins. -/
def resampleSpec (data : List ℚ) (draws : Nat → Nat → Nat) (binsize i : Nat) : ℚ :=
  (((List.range (num_bins data.length binsize)).map
      (fun k => binSpec data binsize (draws i k))).sum)
    / ((num_bins data.length binsize : Nat) : ℚ)

/-- Specification-side value of jackknife resample `i`:
`(total of all bins - bin_i) / (num_bins - 1)`. -/
def jackResampleSpec (data : List ℚ) (binsize i : Nat) : ℚ :=
  (binsTotal data binsize - binSpec data binsize i)
    / ((num_bins data.length binsize : ℚ) - 1)

/-- Cache contents (newest first) after generating bootstrap resamples
`0 .. n-1`. -/
def bootGen (data : List ℚ) (draws : Nat → Nat → Nat) (binsize : Nat) : Nat → Cache
  | 0 => []
  | n + 1 => (bootKey binsize n, resampleSpec data draws binsize n)
      :: bootGen data draws binsize n

/-- Cache contents (newest first) after generating jackknife resamples
`0 .. n-1`. -/
def jackGen (data : List ℚ) (binsize : Nat) : Nat → Cache
  | 0 => []
  | n + 1 => (jackKey binsize n, jackResampleSpec data binsize n) :: jackGen data binsize n

theorem foldlM_bin_list_ok (data : List ℚ) (binsize : Nat) (hb : 1 ≤ binsize) :
    ∀ (l : List Nat) (init : ℚ), (∀ b ∈ l, binsize * b < data.length) →
      l.foldlM
          (fun acc bi => do
            let v ← get_bin data binsize bi
            pure (acc + v)) init
        = Except.ok (init + (l.map (binSpec data binsize)).sum) := by
  intro l
  induction l with
  | nil =>
      intro init _
      simp only [List.foldlM_nil, List.map_nil, List.sum_nil, add_zero]
      rfl
  | cons b rest ih =>
      intro init h
      have hbb : binsize * b < data.length := h b (by simp)
      simp only [List.foldlM_cons, get_bin_ok data binsize b hb hbb, ok_bind, pure_bind_ex]
      rw [ih (init + binSpec data binsize b)
        (fun x hx => h x (List.mem_cons_of_mem b hx))]
      simp only [List.map_cons, List.sum_cons]
      rw [add_assoc]

theorem bootResample_ok (data : List ℚ) (binsize : Nat) (hb : 1 ≤ binsize)
    (bins : List Nat) (hne : bins ≠ [])
    (hall : ∀ b ∈ bins, binsize * b < data.length) :
    bootResample data binsize bins
      = .ok ((bins.map (binSpec data binsize)).sum / ((bins.length : Nat) : ℚ)) := by
  cases bins with
  | nil => exact absurd rfl hne
  | cons b rest =>
      simp only [bootResample]
      rw [get_bin_ok data binsize b hb (hall b (by simp)), ok_bind,
        foldlM_bin_list_ok data binsize hb rest _
          (fun x hx => hall x (List.mem_cons_of_mem b hx)), ok_bind, pure_eq_ok]
      simp only [List.map_cons, List.sum_cons, List.length_cons]

theorem generate_bootstrap_cache_ok (data : List ℚ) (draws : Nat → Nat → Nat)
    (num_bootstraps binsize : Nat) (cache : Cache)
    (hb : 1 ≤ binsize) (hd : 1 ≤ data.length)
    (hdr : ∀ i k, draws i k < num_bins data.length binsize) :
    generate_bootstrap_cache data draws num_bootstraps binsize cache
      = .ok (bootGen data draws binsize num_bootstraps ++ cache) := by
  have hnb : 1 ≤ num_bins data.length binsize := num_bins_pos _ _ hd hb
  unfold generate_bootstrap_cache
  rw [if_neg (by omega)]
  induction num_bootstraps with
  | zero =>
      simp only [List.range_zero, List.foldlM_nil, bootGen, List.nil_append]
      rfl
  | succ m ih =>
      rw [List.range_succ, List.foldlM_append, ih, ok_bind]
      have hne : draw_list draws (num_bins data.length binsize) m ≠ [] := by
        unfold draw_list
        intro hcontra
        have := congrArg List.length hcontra
        simp only [List.length_map, List.length_range, List.length_nil] at this
        omega
      have hall : ∀ b ∈ draw_list draws (num_bins data.length binsize) m,
          binsize * b < data.length := by
        intro b hbmem
        unfold draw_list at hbmem
        obtain ⟨k, _, hkeq⟩ := List.mem_map.mp hbmem
        rw [← hkeq]
        exact bin_start_lt _ _ _ hb (hdr m k)
      simp only [List.foldlM_cons, List.foldlM_nil, if_neg (show ¬ num_bins data.length binsize = 0 by omega),
        bootResample_ok data binsize hb _ hne hall, ok_bind, pure_eq_ok]
      have hval : ((draw_list draws (num_bins data.length binsize) m).map
            (binSpec data binsize)).sum
            / (((draw_list draws (num_bins data.length binsize) m).length : Nat) : ℚ)
          = resampleSpec data draws binsize m := by
        unfold draw_list resampleSpec
        simp only [List.map_map, List.length_map, List.length_range, Function.comp_def]
      rw [hval]
      simp only [bootGen, List.cons_append]

theorem generate_jackknife_cache_ok (data : List ℚ) (binsize : Nat) (cache : Cache)
    (hb : 1 ≤ binsize) (hd : 1 ≤ data.length)
    (hnb2 : 2 ≤ num_bins data.length binsize) :
    generate_jackknife_cache data binsize cache
      = .ok (jackGen data binsize (num_bins data.length binsize) ++ cache) := by
  unfold generate_jackknife_cache
  rw [if_neg (by omega), sum_bins_ok data binsize hd hb, ok_bind]
  have main : ∀ n, n ≤ num_bins data.length binsize →
      (List.range n).foldlM
          (fun c i => do
            let bi ← get_bin data binsize i
            if num_bins data.length binsize ≤ 1 then Except.error DSErr.zeroDivisionError
            else
              pure ((jackKey binsize i,
                (binsTotal data binsize - bi) / ((num_bins data.length binsize : ℚ) - 1)) :: c))
          cache
        = Except.ok (jackGen data binsize n ++ cache) := by
    intro n
    induction n with
    | zero =>
        intro _
        simp only [List.range_zero, List.foldlM_nil, jackGen, List.nil_append]
        rfl
    | succ m ih =>
        intro hm
        rw [List.range_succ, List.foldlM_append, ih (by omega), ok_bind]
        have hmlt : binsize * m < data.length :=
          bin_start_lt _ _ _ hb (by omega)
        simp only [List.foldlM_cons, List.foldlM_nil, get_bin_ok data binsize m hb hmlt,
          ok_bind, pure_eq_ok, if_neg (show ¬ num_bins data.length binsize ≤ 1 by omega)]
        simp only [jackGen, List.cons_append, jackResampleSpec]
  exact main _ (le_refl _)

theorem cacheGet_bootGen (data : List ℚ) (draws : Nat → Nat → Nat) (binsize : Nat) :
    ∀ n i, i < n → ∀ c : Cache,
      cacheGet (bootGen data draws binsize n ++ c) (bootKey binsize i)
        = some (resampleSpec data draws binsize i) := by
  intro n
  induction n with
  | zero => intro i hi; omega
  | succ m ih =>
      intro i hi c
      by_cases h : i = m
      · subst h
        simp only [bootGen, List.cons_append, cacheGet]
        simp
      · simp only [bootGen, List.cons_append, cacheGet]
        rw [if_neg (by simp only [bootKey, Prod.mk.injEq]; omega)]
        exact ih i (by omega) c

theorem cacheGet_jackGen (data : List ℚ) (binsize : Nat) :
    ∀ n i, i < n → ∀ c : Cache,
      cacheGet (jackGen data binsize n ++ c) (jackKey binsize i)
        = some (jackResampleSpec data binsize i) := by
  intro n
  induction n with
  | zero => intro i hi; omega
  | succ m ih =>
      intro i hi c
      by_cases h : i = m
      · subst h
        simp only [jackGen, List.cons_append, cacheGet]
        simp
      · simp only [jackGen, List.cons_append, cacheGet]
        rw [if_neg (by simp only [jackKey, Prod.mk.injEq]; omega)]
        exact ih i (by omega) c

/-- C5 (amended): retrieving a resample from a freshly constructed
archive (empty memory and disk caches) terminates and transparently
recovers the cache miss — regenerating the whole kind/binSize batch and
retrying, never surfacing the miss as an error — for the jackknife kind
whenever `numBins ≥ 2` and the index is in `[0, numBins)`, and for the
bootstrap kind whenever the index is in `[0, numBootstraps)`.  (As
stated the claim fails: a bootstrap index in `[numBootstraps, numBins)`
is regenerated forever, and jackknife regeneration with a single bin
raises `ZeroDivisionError` to the caller.) -/
theorem c5_cache_retrieval (data : List ℚ) (draws : Nat → Nat → Nat)
    (binsize index num_bootstraps fuel : Nat)
    (hb : 1 ≤ binsize) (hd : 1 ≤ data.length) (hf : 2 ≤ fuel)
    (hdr : ∀ i k, draws i k < num_bins data.length binsize) :
    (2 ≤ num_bins data.length binsize → index < num_bins data.length binsize →
      (get_jackknife_cache_datum fuel data [] [] binsize index).map Prod.fst
        = .ok (jackResampleSpec data binsize index))
    ∧ (index < num_bootstraps →
      (get_bootstrap_cache_datum fuel data draws [] [] binsize index num_bootstraps).map Prod.fst
        = .ok (resampleSpec data draws binsize index)) := by
  obtain ⟨f, rfl⟩ : ∃ f, fuel = f + 1 + 1 := ⟨fuel - 2, by omega⟩
  constructor
  · intro hnb2 hi
    have hgen := generate_jackknife_cache_ok data binsize [] hb hd hnb2
    have hhit := cacheGet_jackGen data binsize (num_bins data.length binsize) index hi []
    simp only [get_jackknife_cache_datum, cacheGet, hgen, hhit, Except.map]
  · intro hi
    have hgen := generate_bootstrap_cache_ok data draws num_bootstraps binsize [] hb hd hdr
    have hhit := cacheGet_bootGen data draws binsize num_bootstraps index hi []
    simp only [get_bootstrap_cache_datum, cacheGet, hgen, hhit, Except.map]

/-- Counterexample to C5 as stated: on the singleton archive `[1]` with
`binSize = 1` there is exactly one bin, so resample index 0 is in
`[0, numBins)`, yet retrieving jackknife cache datum 0 regenerates the
batch, whose division by `num_bins - 1 = 0` raises `ZeroDivisionError` —
the cache miss is surfaced to the caller as an error, not recovered. -/
theorem c5_counterexample :
    get_jackknife_cache_datum 5 [1] [] [] 1 0 = .error .zeroDivisionError := by
  decide

/-- Witness for C5's amended theorem on the archive `[1, 2]` with
`binSize = 1` (two bins): both retrievals recover the miss and return
the resample value. -/
theorem c5_witness :
    (get_jackknife_cache_datum 2 [1, 2] [] [] 1 0).map Prod.fst
      = .ok (jackResampleSpec [1, 2] 1 0)
    ∧ (get_bootstrap_cache_datum 2 [1, 2] (fun _ _ => 0) [] [] 1 0 1).map Prod.fst
      = .ok (resampleSpec [1, 2] (fun _ _ => 0) 1 0) := by
  have h := c5_cache_retrieval [1, 2] (fun _ _ => 0) 1 0 1 2 (by decide) (by decide)
    (by decide) (by intro i k; norm_num [num_bins])
  exact ⟨h.1 (by norm_num [num_bins]) (by norm_num [num_bins]), h.2 (by decide)⟩

/-- Scalar instance of `DataSet._mean` (list branch): `out = data[0]`,
then repeated `_add_measurements` (on plain numbers, `+`), then
`_div_measurements(out, len(data))`; `data[0]` raises `IndexError` on an
empty list. -/
def mean_s (out : List ℚ) : Except DSErr ℚ :=
  match out with
  | [] => .error .indexError
  | x :: xs => .ok ((xs.foldl (· + ·) x) / ((xs.length + 1 : Nat) : ℚ))

/-- Scalar instance of `DataSet._std` up to the final `np.sqrt`: the
mean, the accumulated `_mul_measurements(diff, diff)` terms starting from
`data[0]`, divided by `len(data)`. -/
def var_s (out : List ℚ) : Except DSErr ℚ :=
  match out with
  | [] => .error .indexError
  | x :: xs => do
    let μ ← mean_s (x :: xs)
    pure ((xs.foldl (fun acc d => acc + (d - μ) * (d - μ)) ((x - μ) * (x - μ)))
      / ((xs.length + 1 : Nat) : ℚ))

/-- Scalar instance of `DataSet._std` itself: `np.sqrt` applied to the
accumulated variance. -/
noncomputable def std_s (out : List ℚ) : Except DSErr ℝ :=
  (var_s out).map (fun q => Real.sqrt (q : ℝ))

/-- Specification-side mean of a list of scalar measurements. -/
def meanSpec (l : List ℚ) : ℚ := l.sum / ((l.length : Nat) : ℚ)

/-- Specification-side uncorrected variance `sum((x_i - mean)^2) / n`. -/
def varSpec (l : List ℚ) : ℚ :=
  (l.map (fun d => (d - meanSpec l) * (d - meanSpec l))).sum / ((l.length : Nat) : ℚ)

theorem foldl_add_init : ∀ (xs : List ℚ) (init : ℚ),
    xs.foldl (· + ·) init = init + xs.sum := by
  intro xs
  induction xs with
  | nil => intro init; simp
  | cons x rest ih =>
      intro init
      simp only [List.foldl_cons, List.sum_cons, ih (init + x)]
      ring

theorem foldl_add_map (f : ℚ → ℚ) : ∀ (xs : List ℚ) (init : ℚ),
    xs.foldl (fun acc d => acc + f d) init = init + (xs.map f).sum := by
  intro xs
  induction xs with
  | nil => intro init; simp
  | cons x rest ih =>
      intro init
      simp only [List.foldl_cons, List.map_cons, List.sum_cons, ih (init + f x)]
      ring

theorem mean_s_ok (l : List ℚ) (h : l ≠ []) : mean_s l = .ok (meanSpec l) := by
  cases l with
  | nil => exact absurd rfl h
  | cons x xs =>
      simp only [mean_s, foldl_add_init, meanSpec, List.sum_cons, List.length_cons]

theorem var_s_ok (l : List ℚ) (h : l ≠ []) : var_s l = .ok (varSpec l) := by
  cases l with
  | nil => exact absurd rfl h
  | cons x xs =>
      simp only [var_s, mean_s_ok (x :: xs) h, ok_bind, pure_eq_ok,
        foldl_add_map (fun d => (d - meanSpec (x :: xs)) * (d - meanSpec (x :: xs)))]
      simp only [varSpec, List.map_cons, List.sum_cons, List.length_cons]

/-- `DataSet.bootstrap(func, num_bootstraps, binsize, args, use_cache)`
up to the final `np.sqrt` inside `_std`.  Measurement results equal to
`None` are modelled by `func` returning `none` and are dropped.  With
`use_cache`, the cache is generated when `bootstraps_cached` is false and
each of the `num_bins` (not `num_bootstraps`) iterations retrieves a
cached resample, threading the possibly regenerated memory cache;
without it, each of the `num_bootstraps` iterations draws fresh bins and
measures immediately. -/
def bootstrap_core (data : List ℚ) (func : ℚ → Option ℚ) (draws : Nat → Nat → Nat)
    (num_bootstraps binsize : Nat) (cache disk : Cache)
    (bootstraps_cached use_cache : Bool) (fuel : Nat) : Except DSErr (ℚ × ℚ) :=
  if binsize < 1 then .error .valueError
  else if use_cache then do
    let c0 ← if bootstraps_cached then pure cache
      else generate_bootstrap_cache data draws num_bootstraps binsize cache
    let r ← (List.range (num_bins data.length binsize)).foldlM
        (fun (acc : List ℚ × Cache) i => do
          let vc ← get_bootstrap_cache_datum fuel data draws acc.2 disk binsize i
            num_bootstraps
          match func vc.1 with
          | some m => pure (acc.1 ++ [m], vc.2)
          | none => pure (acc.1, vc.2)) (([] : List ℚ), c0)
    let μ ← mean_s r.1
    let σ ← var_s r.1
    pure (μ, σ)
  else do
    let out ← (List.range num_bootstraps).foldlM
        (fun acc i =>
          if num_bins data.length binsize = 0 then .error .valueError
          else do
            let v ← bootResample data binsize
              (draw_list draws (num_bins data.length binsize) i)
            match func v with
            | some m => pure (acc ++ [m])
            | none => pure acc) ([] : List ℚ)
    let μ ← mean_s out
    let σ ← var_s out
    pure (μ, σ)

/-- `DataSet.bootstrap` itself: returns `(_mean(out), _std(out))`, the
core result with `np.sqrt` applied to the variance component. -/
noncomputable def bootstrap (data : List ℚ) (func : ℚ → Option ℚ)
    (draws : Nat → Nat → Nat) (num_bootstraps binsize : Nat) (cache disk : Cache)
    (bootstraps_cached use_cache : Bool) (fuel : Nat) : Except DSErr (ℚ × ℝ) :=
  (bootstrap_core data func draws num_bootstraps binsize cache disk
      bootstraps_cached use_cache fuel).map
    (fun p => (p.1, Real.sqrt (p.2 : ℝ)))

/-- The list of collected non-null measurement results over the first
`n` bootstrap resamples. -/
def bootOut (data : List ℚ) (func : ℚ → Option ℚ) (draws : Nat → Nat → Nat)
    (binsize n : Nat) : List ℚ :=
  (List.range n).filterMap (fun i => func (resampleSpec data draws binsize i))

theorem get_boot_hit (data : List ℚ) (draws : Nat → Nat → Nat) (cache disk : Cache)
    (binsize index num_bootstraps fuel : Nat) (v : ℚ) (hf : 1 ≤ fuel)
    (hhit : cacheGet cache (bootKey binsize index) = some v) :
    get_bootstrap_cache_datum fuel data draws cache disk binsize index num_bootstraps
      = .ok (v, cache) := by
  obtain ⟨g, rfl⟩ : ∃ g, fuel = g + 1 := ⟨fuel - 1, by omega⟩
  simp only [get_bootstrap_cache_datum, hhit]

theorem bootResample_draw (data : List ℚ) (draws : Nat → Nat → Nat) (binsize i : Nat)
    (hb : 1 ≤ binsize) (hd : 1 ≤ data.length)
    (hdr : ∀ i k, draws i k < num_bins data.length binsize) :
    bootResample data binsize (draw_list draws (num_bins data.length binsize) i)
      = .ok (resampleSpec data draws binsize i) := by
  have hnb := num_bins_pos data.length binsize hd hb
  have hne : draw_list draws (num_bins data.length binsize) i ≠ [] := by
    unfold draw_list
    intro hcontra
    have := congrArg List.length hcontra
    simp only [List.length_map, List.length_range, List.length_nil] at this
    omega
  have hall : ∀ b ∈ draw_list draws (num_bins data.length binsize) i,
      binsize * b < data.length := by
    intro b hbmem
    unfold draw_list at hbmem
    obtain ⟨k, _, hkeq⟩ := List.mem_map.mp hbmem
    rw [← hkeq]
    exact bin_start_lt _ _ _ hb (hdr i k)
  rw [bootResample_ok data binsize hb _ hne hall]
  congr 1
  unfold draw_list resampleSpec
  simp only [List.map_map, List.length_map, List.length_range, Function.comp_def]

theorem bootOut_succ (data : List ℚ) (func : ℚ → Option ℚ) (draws : Nat → Nat → Nat)
    (binsize m : Nat) :
    bootOut data func draws binsize (m + 1)
      = bootOut data func draws binsize m
        ++ (match func (resampleSpec data draws binsize m) with
            | some mv => [mv]
            | none => []) := by
  unfold bootOut
  rw [List.range_succ, List.filterMap_append]
  congr 1
  simp only [List.filterMap_cons, List.filterMap_nil]
  cases func (resampleSpec data draws binsize m) <;> rfl

theorem boot_cached_loop (data : List ℚ) (func : ℚ → Option ℚ) (draws : Nat → Nat → Nat)
    (binsize num_bootstraps fuel : Nat) (disk : Cache) (hf : 1 ≤ fuel) :
    ∀ n, n ≤ num_bootstraps →
      (List.range n).foldlM
          (fun (acc : List ℚ × Cache) i => do
            let vc ← get_bootstrap_cache_datum fuel data draws acc.2 disk binsize i
              num_bootstraps
            match func vc.1 with
            | some m => pure (acc.1 ++ [m], vc.2)
            | none => pure (acc.1, vc.2))
          (([] : List ℚ), bootGen data draws binsize num_bootstraps ++ [])
        = Except.ok (bootOut data func draws binsize n,
            bootGen data draws binsize num_bootstraps ++ []) := by
  intro n
  induction n with
  | zero =>
      intro _
      simp only [List.range_zero, List.foldlM_nil, bootOut, List.filterMap_nil]
      rfl
  | succ m ih =>
      intro hm
      rw [List.range_succ, List.foldlM_append, ih (by omega), ok_bind]
      have hhit := cacheGet_bootGen data draws binsize num_bootstraps m (by omega) []
      simp only [List.foldlM_cons, List.foldlM_nil,
        get_boot_hit data draws _ disk binsize m num_bootstraps fuel _ hf hhit, ok_bind]
      rw [bootOut_succ]
      cases hfm : func (resampleSpec data draws binsize m) with
      | some mv => simp only [hfm, pure_eq_ok, pure_bind_ex, ok_bind]
      | none => simp only [hfm, pure_eq_ok, pure_bind_ex, ok_bind, List.append_nil]

theorem boot_direct_loop (data : List ℚ) (func : ℚ → Option ℚ) (draws : Nat → Nat → Nat)
    (binsize : Nat) (hb : 1 ≤ binsize) (hd : 1 ≤ data.length)
    (hdr : ∀ i k, draws i k < num_bins data.length binsize) :
    ∀ n, (List.range n).foldlM
        (fun acc i =>
          if num_bins data.length binsize = 0 then .error .valueError
          else do
            let v ← bootResample data binsize
              (draw_list draws (num_bins data.length binsize) i)
            match func v with
            | some m => pure (acc ++ [m])
            | none => pure acc) ([] : List ℚ)
      = Except.ok (bootOut data func draws binsize n) := by
  have hnb := num_bins_pos data.length binsize hd hb
  intro n
  induction n with
  | zero =>
      simp only [List.range_zero, List.foldlM_nil, bootOut, List.filterMap_nil]
      rfl
  | succ m ih =>
      rw [List.range_succ, List.foldlM_append, ih, ok_bind]
      simp only [List.foldlM_cons, List.foldlM_nil,
        if_neg (show ¬ num_bins data.length binsize = 0 by omega),
        bootResample_draw data draws binsize m hb hd hdr, ok_bind]
      rw [bootOut_succ]
      cases hfm : func (resampleSpec data draws binsize m) with
      | some mv => simp only [hfm, pure_eq_ok, pure_bind_ex, ok_bind]
      | none => simp only [hfm, pure_eq_ok, pure_bind_ex, ok_bind, List.append_nil]

/-- C4 (amended): on a non-empty archive, with `binSize ≥ 1`, draws in
range, `numBins ≤ numBootstraps`, and at least one non-null measurement
collected on each path, `bootstrap(fn, numBootstraps, binSize,
useCache=True)` starting from a fresh cache applies `fn` to exactly the
`numBins` cached resamples (`numBins = ceil(count/binSize)`, not
`numBootstraps`), while `useCache=False` performs `numBootstraps`
draws each immediately measured; both return
`(mean(results), sqrt(uncorrected variance of results))`.
(As stated the claim fails: when every measurement is null the final
`_mean([])` raises `IndexError` instead of returning a pair, and when
`numBins > numBootstraps` the cached path never terminates.) -/
theorem c4_bootstrap (data : List ℚ) (func : ℚ → Option ℚ) (draws : Nat → Nat → Nat)
    (num_bootstraps binsize fuel : Nat) (disk : Cache)
    (hb : 1 ≤ binsize) (hd : 1 ≤ data.length) (hf : 1 ≤ fuel)
    (hdr : ∀ i k, draws i k < num_bins data.length binsize)
    (hle : num_bins data.length binsize ≤ num_bootstraps)
    (hc : bootOut data func draws binsize (num_bins data.length binsize) ≠ [])
    (hnc : bootOut data func draws binsize num_bootstraps ≠ []) :
    bootstrap data func draws num_bootstraps binsize [] disk false true fuel
      = .ok (meanSpec (bootOut data func draws binsize (num_bins data.length binsize)),
          Real.sqrt ((varSpec (bootOut data func draws binsize
            (num_bins data.length binsize)) : ℚ) : ℝ))
    ∧ bootstrap data func draws num_bootstraps binsize [] disk false false fuel
      = .ok (meanSpec (bootOut data func draws binsize num_bootstraps),
          Real.sqrt ((varSpec (bootOut data func draws binsize num_bootstraps) : ℚ) : ℝ)) := by
  constructor
  · have hcore : bootstrap_core data func draws num_bootstraps binsize [] disk false true fuel
        = .ok (meanSpec (bootOut data func draws binsize (num_bins data.length binsize)),
            varSpec (bootOut data func draws binsize (num_bins data.length binsize))) := by
      unfold bootstrap_core
      rw [if_neg (by omega), if_pos rfl, if_neg Bool.false_ne_true,
        generate_bootstrap_cache_ok data draws num_bootstraps binsize [] hb hd hdr]
      simp only [ok_bind]
      rw [boot_cached_loop data func draws binsize num_bootstraps fuel disk hf
        (num_bins data.length binsize) hle]
      simp only [ok_bind, mean_s_ok _ hc, var_s_ok _ hc, pure_eq_ok]
    unfold bootstrap
    rw [hcore]
    rfl
  · have hcore : bootstrap_core data func draws num_bootstraps binsize [] disk false false fuel
        = .ok (meanSpec (bootOut data func draws binsize num_bootstraps),
            varSpec (bootOut data func draws binsize num_bootstraps)) := by
      unfold bootstrap_core
      rw [if_neg (by omega), if_neg Bool.false_ne_true,
        boot_direct_loop data func draws binsize hb hd hdr num_bootstraps]
      simp only [ok_bind, mean_s_ok _ hnc, var_s_ok _ hnc, pure_eq_ok]
    unfold bootstrap
    rw [hcore]
    rfl

/-- Counterexample to C4 as stated: on the singleton archive `[1]` with
a measurement function that always returns `None`, no results are
collected, and the final `_mean([])` raises `IndexError` — `bootstrap`
raises instead of returning the claimed `(mean, std)` pair. -/
theorem c4_counterexample :
    bootstrap [1] (fun _ => none) (fun _ _ => 0) 1 1 [] [] false true 3
      = .error .indexError := by
  have hcore : bootstrap_core [1] (fun _ => none) (fun _ _ => 0) 1 1 [] [] false true 3
      = .error .indexError := by decide
  unfold bootstrap
  rw [hcore]
  rfl

/-- Witness for C4's amended theorem on the archive `[1, 2]` with
`binSize = 1`, `numBootstraps = 2`, the always-non-null measurement
`some`, and draws constantly 0. -/
theorem c4_witness :
    bootstrap [1, 2] some (fun _ _ => 0) 2 1 [] [] false true 1
      = .ok (meanSpec (bootOut [1, 2] some (fun _ _ => 0) 1 (num_bins 2 1)),
          Real.sqrt ((varSpec (bootOut [1, 2] some (fun _ _ => 0) 1 (num_bins 2 1)) : ℚ) : ℝ))
    ∧ bootstrap [1, 2] some (fun _ _ => 0) 2 1 [] [] false false 1
      = .ok (meanSpec (bootOut [1, 2] some (fun _ _ => 0) 1 2),
          Real.sqrt ((varSpec (bootOut [1, 2] some (fun _ _ => 0) 1 2) : ℚ) : ℝ)) := by
  have h := c4_bootstrap [1, 2] some (fun _ _ => 0) 2 1 1 []
    (by decide) (by decide) (by decide)
    (by intro i k; norm_num [num_bins])
    (by norm_num [num_bins])
    (by simp [bootOut, num_bins, List.range_succ])
    (by simp [bootOut, num_bins, List.range_succ])
  exact h

/-- A measurement value as dispatched on by `_add_measurements` and
friends: a plain number, an ordered sequence (Python list; tuples are
converted to lists up front), or a key-value mapping (Python dict,
embedded as an association list in iteration order). -/
inductive Meas where
  | num (q : ℚ)
  | seq (l : List Meas)
  | map (kvs : List (String × Meas))

/-- A measurement value with real-number leaves, the codomain of
`_sqrt_measurements`. -/
inductive RMeas where
  | num (r : ℝ)
  | seq (l : List RMeas)
  | map (kvs : List (String × RMeas))

/-- `DataSet._add_measurements(a, b)`.  Scalars use their native `+`
(the `__add__` branch); equal structures are combined elementwise with
Python's `zip` truncating at the shorter operand; `dict`/`dict` and
`dict`/`list` keep the left dict's keys and pair values in order
(inlining the source's detour through `b.values()`); `list`/`dict`
recurses as `_add_measurements(b, a)`, so the dict's values become the
left operands and its keys are kept; any other pair raises
`TypeError`. -/
def addM : Meas → Meas → Except DSErr Meas
  | .num x, .num y => .ok (.num (x + y))
  | .seq [], .seq _ => .ok (.seq [])
  | .seq (_ :: _), .seq [] => .ok (.seq [])
  | .seq (x :: xs), .seq (y :: ys) => do
      let z ← addM x y
      let rest ← addM (.seq xs) (.seq ys)
      match rest with
      | .seq zs => .ok (.seq (z :: zs))
      | _ => .error .typeError
  | .map [], .map _ => .ok (.map [])
  | .map (_ :: _), .map [] => .ok (.map [])
  | .map ((k, x) :: xs), .map ((_, y) :: ys) => do
      let z ← addM x y
      let rest ← addM (.map xs) (.map ys)
      match rest with
      | .map zs => .ok (.map ((k, z) :: zs))
      | _ => .error .typeError
  | .map [], .seq _ => .ok (.map [])
  | .map (_ :: _), .seq [] => .ok (.map [])
  | .map ((k, x) :: xs), .seq (y :: ys) => do
      let z ← addM x y
      let rest ← addM (.map xs) (.seq ys)
      match rest with
      | .map zs => .ok (.map ((k, z) :: zs))
      | _ => .error .typeError
  | .seq [], .map _ => .ok (.map [])
  | .seq (_ :: _), .map [] => .ok (.map [])
  | .seq (y :: ys), .map ((k, x) :: xs) => do
      let z ← addM x y
      let rest ← addM (.seq ys) (.map xs)
      match rest with
      | .map zs => .ok (.map ((k, z) :: zs))
      | _ => .error .typeError
  | _, _ => .error .typeError
termination_by a b => sizeOf a + sizeOf b

/-- `DataSet._sub_measurements(a, b)`.  The native `__sub__` branch is
checked first (scalars); structural branches mirror `_add_measurements`
except that `list`/`dict` keeps the operand order (`_sub(a, b.values())`)
while taking the dict's keys. -/
def subM : Meas → Meas → Except DSErr Meas
  | .num x, .num y => .ok (.num (x - y))
  | .seq [], .seq _ => .ok (.seq [])
  | .seq (_ :: _), .seq [] => .ok (.seq [])
  | .seq (x :: xs), .seq (y :: ys) => do
      let z ← subM x y
      let rest ← subM (.seq xs) (.seq ys)
      match rest with
      | .seq zs => .ok (.seq (z :: zs))
      | _ => .error .typeError
  | .map [], .map _ => .ok (.map [])
  | .map (_ :: _), .map [] => .ok (.map [])
  | .map ((k, x) :: xs), .map ((_, y) :: ys) => do
      let z ← subM x y
      let rest ← subM (.map xs) (.map ys)
      match rest with
      | .map zs => .ok (.map ((k, z) :: zs))
      | _ => .error .typeError
  | .map [], .seq _ => .ok (.map [])
  | .map (_ :: _), .seq [] => .ok (.map [])
  | .map ((k, x) :: xs), .seq (y :: ys) => do
      let z ← subM x y
      let rest ← subM (.map xs) (.seq ys)
      match rest with
      | .map zs => .ok (.map ((k, z) :: zs))
      | _ => .error .typeError
  | .seq [], .map _ => .ok (.map [])
  | .seq (_ :: _), .map [] => .ok (.map [])
  | .seq (x :: xs), .map ((k, y) :: ys) => do
      let z ← subM x y
      let rest ← subM (.seq xs) (.map ys)
      match rest with
      | .map zs => .ok (.map ((k, z) :: zs))
      | _ => .error .typeError
  | _, _ => .error .typeError
termination_by a b => sizeOf a + sizeOf b

/-- `DataSet._mul_measurements(a, b)`: structurally identical to
`_add_measurements` with elementwise `*`. -/
def mulM : Meas → Meas → Except DSErr Meas
  | .num x, .num y => .ok (.num (x * y))
  | .seq [], .seq _ => .ok (.seq [])
  | .seq (_ :: _), .seq [] => .ok (.seq [])
  | .seq (x :: xs), .seq (y :: ys) => do
      let z ← mulM x y
      let rest ← mulM (.seq xs) (.seq ys)
      match rest with
      | .seq zs => .ok (.seq (z :: zs))
      | _ => .error .typeError
  | .map [], .map _ => .ok (.map [])
  | .map (_ :: _), .map [] => .ok (.map [])
  | .map ((k, x) :: xs), .map ((_, y) :: ys) => do
      let z ← mulM x y
      let rest ← mulM (.map xs) (.map ys)
      match rest with
      | .map zs => .ok (.map ((k, z) :: zs))
      | _ => .error .typeError
  | .map [], .seq _ => .ok (.map [])
  | .map (_ :: _), .seq [] => .ok (.map [])
  | .map ((k, x) :: xs), .seq (y :: ys) => do
      let z ← mulM x y
      let rest ← mulM (.map xs) (.seq ys)
      match rest with
      | .map zs => .ok (.map ((k, z) :: zs))
      | _ => .error .typeError
  | .seq [], .map _ => .ok (.map [])
  | .seq (_ :: _), .map [] => .ok (.map [])
  | .seq (y :: ys), .map ((k, x) :: xs) => do
      let z ← mulM x y
      let rest ← mulM (.seq ys) (.map xs)
      match rest with
      | .map zs => .ok (.map ((k, z) :: zs))
      | _ => .error .typeError
  | _, _ => .error .typeError
termination_by a b => sizeOf a + sizeOf b

/-- `DataSet._div_measurements(a, div)`: scalars use native division
(`__div__`), sequences and mappings divide each value; the divisor is
always a plain number here, so the divisor type check passes. -/
def divM : Meas → ℚ → Meas
  | .num x, d => .num (x / d)
  | .seq l, d => .seq (l.attach.map (fun z => divM z.1 d))
  | .map kvs, d => .map (kvs.attach.map (fun z => (z.1.1, divM z.1.2 d)))
termination_by m _ => sizeOf m
decreasing_by
  · have := List.sizeOf_lt_of_mem z.2
    simp only [Meas.seq.sizeOf_spec]
    omega
  · have h1 := List.sizeOf_lt_of_mem z.2
    have h2 : sizeOf z.1.2 < sizeOf z.1 := by
      obtain ⟨k, v⟩ := z.1
      simp only [Prod.mk.sizeOf_spec]
      omega
    simp only [Meas.map.sizeOf_spec]
    omega

/-- `DataSet._sqrt_measurements(a)`: `np.sqrt` at numeric leaves,
recursing through sequences and mappings. -/
noncomputable def sqrtM : Meas → RMeas
  | .num x => .num (Real.sqrt (x : ℝ))
  | .seq l => .seq (l.attach.map (fun z => sqrtM z.1))
  | .map kvs => .map (kvs.attach.map (fun z => (z.1.1, sqrtM z.1.2)))
termination_by m => sizeOf m
decreasing_by
  · have := List.sizeOf_lt_of_mem z.2
    simp only [Meas.seq.sizeOf_spec]
    omega
  · have h1 := List.sizeOf_lt_of_mem z.2
    have h2 : sizeOf z.1.2 < sizeOf z.1 := by
      obtain ⟨k, v⟩ := z.1
      simp only [Prod.mk.sizeOf_spec]
      omega
    simp only [Meas.map.sizeOf_spec]
    omega

/-- `DataSet._mean(data)` (list branch): `out = data[0]` (raising
`IndexError` on an empty list), repeated `_add_measurements`, then
`_div_measurements(out, len(data))`. -/
def ds_mean (data : List Meas) : Except DSErr Meas :=
  match data with
  | [] => .error .indexError
  | x :: xs => do
    let s ← xs.foldlM (fun acc d => addM acc d) x
    pure (divM s ((xs.length + 1 : Nat) : ℚ))

/-- `DataSet._std(data)` (list branch) up to the final
`_sqrt_measurements`: the mean, the accumulated squared differences
starting from `data[0]`, divided by `len(data)`. -/
def ds_var (data : List Meas) : Except DSErr Meas :=
  match data with
  | [] => .error .indexError
  | x :: xs => do
    let mu ← ds_mean (x :: xs)
    let d0 ← subM x mu
    let o0 ← mulM d0 d0
    let s ← xs.foldlM
        (fun acc d => do
          let df ← subM d mu
          let sq ← mulM df df
          addM acc sq) o0
    pure (divM s ((xs.length + 1 : Nat) : ℚ))

/-- `DataSet._std(data)` (list branch): `_sqrt_measurements` of the
accumulated variance. -/
noncomputable def ds_std (data : List Meas) : Except DSErr RMeas :=
  (ds_var data).map sqrtM

/-- `DataSet._std_jackknife(data)` (list branch) up to the final
`_sqrt_measurements`: as `_std`, but divided by
`div = float(len(data)) / (len(data) - 1)`, whose computation raises
`ZeroDivisionError` when `len(data) = 1`. -/
def ds_var_jack (data : List Meas) : Except DSErr Meas :=
  match data with
  | [] => .error .indexError
  | x :: xs => do
    let mu ← ds_mean (x :: xs)
    let d0 ← subM x mu
    let o0 ← mulM d0 d0
    let s ← xs.foldlM
        (fun acc d => do
          let df ← subM d mu
          let sq ← mulM df df
          addM acc sq) o0
    if xs.length = 0 then .error .zeroDivisionError
    else pure (divM s (((xs.length + 1 : Nat) : ℚ) / (((xs.length + 1 : Nat) : ℚ) - 1)))

/-- `DataSet._std_jackknife(data)` (list branch): `_sqrt_measurements`
of the bias-corrected variance. -/
noncomputable def ds_std_jackknife (data : List Meas) : Except DSErr RMeas :=
  (ds_var_jack data).map sqrtM

theorem addM_num (a b : ℚ) : addM (.num a) (.num b) = .ok (.num (a + b)) := by
  simp [addM]

theorem subM_num (a b : ℚ) : subM (.num a) (.num b) = .ok (.num (a - b)) := by
  simp [subM]

theorem mulM_num (a b : ℚ) : mulM (.num a) (.num b) = .ok (.num (a * b)) := by
  simp [mulM]

theorem divM_num (a d : ℚ) : divM (.num a) d = .num (a / d) := by
  simp [divM]

theorem sqrtM_num (a : ℚ) : sqrtM (.num a) = .num (Real.sqrt (a : ℝ)) := by
  simp [sqrtM]

theorem foldlM_addM_num : ∀ (xs : List ℚ) (a : ℚ),
    (xs.map Meas.num).foldlM (fun acc d => addM acc d) (Meas.num a)
      = .ok (.num (a + xs.sum)) := by
  intro xs
  induction xs with
  | nil => intro a; simp [pure_eq_ok]
  | cons x rest ih =>
      intro a
      simp only [List.map_cons, List.foldlM_cons, addM_num, ok_bind, ih (a + x),
        List.sum_cons]
      rw [add_assoc]

theorem ds_mean_num (xs : List ℚ) (h : xs ≠ []) :
    ds_mean (xs.map Meas.num) = .ok (.num (meanSpec xs)) := by
  cases xs with
  | nil => exact absurd rfl h
  | cons x rest =>
      simp only [List.map_cons, ds_mean, foldlM_addM_num rest x, ok_bind, pure_eq_ok,
        divM_num, meanSpec, List.sum_cons, List.length_cons, List.length_map]

theorem foldlM_sq_num (mu : ℚ) : ∀ (xs : List ℚ) (a : ℚ),
    (xs.map Meas.num).foldlM
        (fun acc d => do
          let df ← subM d (.num mu)
          let sq ← mulM df df
          addM acc sq) (Meas.num a)
      = .ok (.num (a + (xs.map (fun d => (d - mu) * (d - mu))).sum)) := by
  intro xs
  induction xs with
  | nil => intro a; simp [pure_eq_ok]
  | cons x rest ih =>
      intro a
      simp only [List.map_cons, List.foldlM_cons, subM_num, ok_bind, mulM_num, addM_num,
        ih (a + (x - mu) * (x - mu)), List.sum_cons]
      rw [add_assoc]

theorem ds_var_num (xs : List ℚ) (h : xs ≠ []) :
    ds_var (xs.map Meas.num) = .ok (.num (varSpec xs)) := by
  cases xs with
  | nil => exact absurd rfl h
  | cons x rest =>
      have hmean : ds_mean (Meas.num x :: rest.map Meas.num)
          = .ok (.num (meanSpec (x :: rest))) := by
        simpa using ds_mean_num (x :: rest) h
      simp only [List.map_cons, ds_var, hmean, ok_bind, subM_num, mulM_num,
        foldlM_sq_num (meanSpec (x :: rest)) rest, pure_eq_ok, divM_num,
        varSpec, List.map_cons, List.sum_cons, List.length_cons, List.length_map]

theorem ds_var_jack_num (xs : List ℚ) (h2 : 2 ≤ xs.length) :
    ds_var_jack (xs.map Meas.num)
      = .ok (.num ((xs.map (fun d => (d - meanSpec xs) * (d - meanSpec xs))).sum
          * (((xs.length : Nat) : ℚ) - 1) / ((xs.length : Nat) : ℚ))) := by
  cases xs with
  | nil => simp at h2
  | cons x rest =>
      have h : (x :: rest) ≠ [] := by simp
      have hmean : ds_mean (Meas.num x :: rest.map Meas.num)
          = .ok (.num (meanSpec (x :: rest))) := by
        simpa using ds_mean_num (x :: rest) h
      have hrest : ¬ rest.length = 0 := by
        simp only [List.length_cons] at h2
        omega
      simp only [List.map_cons, ds_var_jack, hmean, ok_bind, subM_num, mulM_num,
        foldlM_sq_num (meanSpec (x :: rest)) rest, if_neg hrest, pure_eq_ok, divM_num,
        List.map_cons, List.sum_cons, List.length_cons, List.length_map]
      rw [div_div_eq_mul_div]

theorem ds_var_jack_single (x : ℚ) :
    ds_var_jack [Meas.num x] = .error .zeroDivisionError := by
  simp [ds_var_jack, ds_mean, subM, mulM, divM, ok_bind, pure_eq_ok, pure_bind_ex]

/-- C1 (amended): for every non-empty list of `n` scalar measurement
values, the mean reducer returns the sum divided by `n`, and the
bootstrap standard-deviation reducer returns
`sqrt( sum((x_i - mean)^2) / n )`, exactly over the embedded rational
arithmetic; the jackknife standard-deviation reducer returns
`sqrt( sum((x_i - mean)^2) * (n-1)/n )` for `n ≥ 2`, but raises
`ZeroDivisionError` for `n = 1` (computing `float(n)/(n-1)`), where the
claim as stated expects the formula (which evaluates to `sqrt 0 = 0`). -/
theorem c1_reducers (xs : List ℚ) (h : xs ≠ []) :
    ds_mean (xs.map Meas.num) = .ok (.num (xs.sum / ((xs.length : Nat) : ℚ)))
    ∧ ds_std (xs.map Meas.num)
        = .ok (.num (Real.sqrt (((xs.map (fun d =>
              (d - xs.sum / ((xs.length : Nat) : ℚ))
                * (d - xs.sum / ((xs.length : Nat) : ℚ)))).sum
            / ((xs.length : Nat) : ℚ) : ℚ) : ℝ)))
    ∧ (2 ≤ xs.length → ds_std_jackknife (xs.map Meas.num)
        = .ok (.num (Real.sqrt (((xs.map (fun d =>
              (d - xs.sum / ((xs.length : Nat) : ℚ))
                * (d - xs.sum / ((xs.length : Nat) : ℚ)))).sum
            * (((xs.length : Nat) : ℚ) - 1) / ((xs.length : Nat) : ℚ) : ℚ) : ℝ))))
    ∧ (xs.length = 1 → ds_var_jack (xs.map Meas.num) = .error .zeroDivisionError) := by
  refine ⟨?_, ?_, ?_, ?_⟩
  · simpa [meanSpec] using ds_mean_num xs h
  · unfold ds_std
    rw [ds_var_num xs h]
    simp only [Except.map, sqrtM_num, varSpec, meanSpec]
  · intro h2
    unfold ds_std_jackknife
    rw [ds_var_jack_num xs h2]
    simp only [Except.map, sqrtM_num, meanSpec]
  · intro h1
    obtain ⟨x, rfl⟩ : ∃ x, xs = [x] := by
      cases xs with
      | nil => simp at h1
      | cons x rest =>
          simp only [List.length_cons, Nat.add_left_eq_self] at h1
          exact ⟨x, by rw [List.length_eq_zero.mp h1]⟩
    exact ds_var_jack_single x

/-- Counterexample to C1 as stated: on the singleton list `[5]` the
jackknife standard-deviation reducer raises `ZeroDivisionError`
(computing `float(1)/(1-1)`) instead of returning the claimed
`sqrt( 0 * (1-1)/1 ) = 0`. -/
theorem c1_counterexample :
    ds_std_jackknife [Meas.num 5] = .error .zeroDivisionError := by
  unfold ds_std_jackknife
  rw [ds_var_jack_single 5]
  rfl

/-- Witness for C1's amended theorem: the mean of `[1, 2]` and the
jackknife error at the singleton `[5]`. -/
theorem c1_witness :
    (([(1 : ℚ), 2] : List ℚ) ≠ []
      ∧ ds_mean ([(1 : ℚ), 2].map Meas.num)
          = .ok (.num (([(1 : ℚ), 2].sum / ((([(1 : ℚ), 2].length : Nat) : ℚ)))))
      ∧ ds_var_jack ([(5 : ℚ)].map Meas.num) = .error .zeroDivisionError)
    ∧ ds_mean ([(1 : ℚ), 2].map Meas.num) = .ok (.num (3 / 2)) := by
  have h1 := (c1_reducers [(1 : ℚ), 2] (by simp)).1
  have h4 := (c1_reducers [(5 : ℚ)] (by simp)).2.2.2 (by simp)
  refine ⟨⟨by simp, h1, h4⟩, ?_⟩
  rw [h1]
  norm_num

/-- Compatible shape in the claim's sense: equal-shape scalars,
equal-length sequences of compatible values, or mappings with the same
keys in the same order and compatible values. -/
def sameShape : Meas → Meas → Bool
  | .num _, .num _ => true
  | .seq [], .seq [] => true
  | .seq (x :: xs), .seq (y :: ys) => sameShape x y && sameShape (.seq xs) (.seq ys)
  | .map [], .map [] => true
  | .map ((k, x) :: xs), .map ((k2, y) :: ys) =>
      (k == k2) && sameShape x y && sameShape (.map xs) (.map ys)
  | _, _ => false
termination_by a b => sizeOf a + sizeOf b

theorem add_sub_roundtrip_aux :
    ∀ (n : Nat) (a b : Meas), sizeOf a + sizeOf b ≤ n → sameShape a b = true →
      ∃ c, addM a b = .ok c ∧ sameShape c b = true ∧ subM c b = .ok a := by
  intro n
  induction n with
  | zero =>
      intro a b hle _
      exfalso
      cases a <;>
        simp only [Meas.num.sizeOf_spec, Meas.seq.sizeOf_spec, Meas.map.sizeOf_spec] at hle <;>
        omega
  | succ N ih =>
      intro a b hle hs
      cases a with
      | num x =>
          cases b with
          | num y =>
              refine ⟨.num (x + y), addM_num x y, by simp [sameShape], ?_⟩
              rw [subM_num]
              congr 2
              ring
          | seq l => rw [sameShape.eq_def] at hs; simp at hs
          | map l => rw [sameShape.eq_def] at hs; simp at hs
      | seq l1 =>
          cases b with
          | num y => rw [sameShape.eq_def] at hs; simp at hs
          | map l2 => rw [sameShape.eq_def] at hs; simp at hs
          | seq l2 =>
              cases l1 with
              | nil =>
                  cases l2 with
                  | nil =>
                      exact ⟨.seq [], by simp [addM], by simp [sameShape], by simp [subM]⟩
                  | cons y ys => rw [sameShape.eq_def] at hs; simp at hs
              | cons x xs =>
                  cases l2 with
                  | nil => rw [sameShape.eq_def] at hs; simp at hs
                  | cons y ys =>
                      simp only [sameShape, Bool.and_eq_true] at hs
                      obtain ⟨hs1, hs2⟩ := hs
                      have hszA : sizeOf x + sizeOf y ≤ N := by
                        simp only [Meas.seq.sizeOf_spec, List.cons.sizeOf_spec] at hle
                        omega
                      have hszB : sizeOf (Meas.seq xs) + sizeOf (Meas.seq ys) ≤ N := by
                        simp only [Meas.seq.sizeOf_spec, List.cons.sizeOf_spec] at hle ⊢
                        omega
                      obtain ⟨c1, hadd1, hsh1, hsub1⟩ := ih x y hszA hs1
                      obtain ⟨c2, hadd2, hsh2, hsub2⟩ := ih _ _ hszB hs2
                      obtain ⟨zs, rfl⟩ : ∃ zs, c2 = .seq zs := by
                        cases c2 with
                        | seq zs => exact ⟨zs, rfl⟩
                        | num q => rw [sameShape.eq_def] at hsh2; cases ys <;> simp at hsh2
                        | map kv => rw [sameShape.eq_def] at hsh2; cases ys <;> simp at hsh2
                      refine ⟨.seq (c1 :: zs), ?_, ?_, ?_⟩
                      · simp only [addM, hadd1, hadd2, ok_bind]
                      · simp [sameShape, hsh1, hsh2]
                      · simp only [subM, hsub1, hsub2, ok_bind]
      | map l1 =>
          cases b with
          | num y => rw [sameShape.eq_def] at hs; simp at hs
          | seq l2 => rw [sameShape.eq_def] at hs; simp at hs
          | map l2 =>
              cases l1 with
              | nil =>
                  cases l2 with
                  | nil =>
                      exact ⟨.map [], by simp [addM], by simp [sameShape], by simp [subM]⟩
                  | cons p ys => rw [sameShape.eq_def] at hs; simp at hs
              | cons p xs =>
                  obtain ⟨k, x⟩ := p
                  cases l2 with
                  | nil => rw [sameShape.eq_def] at hs; simp at hs
                  | cons p2 ys =>
                      obtain ⟨k2, y⟩ := p2
                      simp only [sameShape, Bool.and_eq_true, beq_iff_eq] at hs
                      obtain ⟨⟨hkl, hs1⟩, hs2⟩ := hs
                      subst hkl
                      have hszA : sizeOf x + sizeOf y ≤ N := by
                        simp only [Meas.map.sizeOf_spec, List.cons.sizeOf_spec,
                          Prod.mk.sizeOf_spec] at hle
                        omega
                      have hszB : sizeOf (Meas.map xs) + sizeOf (Meas.map ys) ≤ N := by
                        simp only [Meas.map.sizeOf_spec, List.cons.sizeOf_spec,
                          Prod.mk.sizeOf_spec] at hle ⊢
                        omega
                      obtain ⟨c1, hadd1, hsh1, hsub1⟩ := ih x y hszA hs1
                      obtain ⟨c2, hadd2, hsh2, hsub2⟩ := ih _ _ hszB hs2
                      obtain ⟨zs, rfl⟩ : ∃ zs, c2 = .map zs := by
                        cases c2 with
                        | map zs => exact ⟨zs, rfl⟩
                        | num q => rw [sameShape.eq_def] at hsh2; cases ys <;> simp at hsh2
                        | seq l => rw [sameShape.eq_def] at hsh2; cases ys <;> simp at hsh2
                      refine ⟨.map ((k, c1) :: zs), ?_, ?_, ?_⟩
                      · simp only [addM, hadd1, hadd2, ok_bind]
                      · simp [sameShape, hsh1, hsh2]
                      · simp only [subM, hsub1, hsub2, ok_bind]

/-- C9: for all measurement values `a` and `b` of compatible shape
(equal-shape scalars, equal-length sequences, or mappings over the same
keys, with exact numeric leaves), subtracting `b` from the result of
adding `a` and `b` reconstructs `a` exactly. -/
theorem c9_add_sub_roundtrip (a b : Meas) (h : sameShape a b = true) :
    (addM a b).bind (fun c => subM c b) = .ok a := by
  obtain ⟨c, hadd, _, hsub⟩ :=
    add_sub_roundtrip_aux (sizeOf a + sizeOf b) a b (le_refl _) h
  rw [hadd]
  exact hsub

/-- Witness for C9 at a compound value: a mapping holding a sequence and
a scalar. -/
theorem c9_witness :
    sameShape
        (.map [("p", .seq [.num 1, .num 2]), ("q", .num 3)])
        (.map [("p", .seq [.num 4, .num 5]), ("q", .num 6)]) = true
    ∧ (addM (.map [("p", .seq [.num 1, .num 2]), ("q", .num 3)])
          (.map [("p", .seq [.num 4, .num 5]), ("q", .num 6)])).bind
        (fun c => subM c (.map [("p", .seq [.num 4, .num 5]), ("q", .num 6)]))
      = .ok (.map [("p", .seq [.num 1, .num 2]), ("q", .num 3)]) := by
  have hshape : sameShape
      (Meas.map [("p", .seq [.num 1, .num 2]), ("q", .num 3)])
      (Meas.map [("p", .seq [.num 4, .num 5]), ("q", .num 6)]) = true := by
    simp [sameShape]
  exact ⟨hshape, c9_add_sub_roundtrip _ _ hshape⟩

/-- The decimal digit character for `d < 10`. -/
def digitChar (d : Nat) : Char := Char.ofNat (48 + d)

/-- Decimal digit accumulator (fuelled; `fuel ≥ n` renders all digits of
`n`, most significant first, onto `acc`). -/
def natDigitsGo : Nat → Nat → List Char → List Char
  | 0, _, acc => acc
  | fuel + 1, n, acc =>
      if n = 0 then acc else natDigitsGo fuel (n / 10) (digitChar (n % 10) :: acc)

/-- The decimal rendering of a natural number used in archive entry
names (Python `str(i)` via `.format`). -/
def natDigits (n : Nat) : List Char :=
  if n = 0 then ['0'] else natDigitsGo n n []

/-- A model of Python `int(s)` for the strings arising in archive entry
names: a non-empty all-digit string parses to its value; any other
string (e.g. one containing an underscore or letters) raises
`ValueError`.  (Real `int()` also strips signs and whitespace, which
never occur in these names.) -/
def parseNatChars : List Char → Option Nat
  | [] => none
  | c :: cs => (c :: cs).foldlM
      (fun acc ch => if ch.isDigit then some (acc * 10 + (ch.toNat - 48)) else none) 0

/-- Python `fname.find(sub) >= 0`: `sub` occurs as a contiguous
substring. -/
def listHasInfix (needle : List Char) : List Char → Bool
  | [] => needle.isEmpty
  | c :: rest => needle.isPrefixOf (c :: rest) || listHasInfix needle rest

/-- The archive entry name `"{typename}{index}.npz"` written by
`add_datum`. -/
def datumName (typename : List Char) (i : Nat) : List Char :=
  typename ++ natDigits i ++ ".npz".toList

/-- The jackknife cache entry name
`"{typename}_jackknife_binsize{binsize}_{i}.npz"`. -/
def jackCacheName (typename : List Char) (binsize i : Nat) : List Char :=
  typename ++ "_jackknife_binsize".toList ++ natDigits binsize
    ++ "_".toList ++ natDigits i ++ ".npz".toList

/-- The bootstrap cache entry name
`"{typename}_bootstrap_binsize{binsize}_{i}.npz"`. -/
def bootCacheName (typename : List Char) (binsize i : Nat) : List Char :=
  typename ++ "_bootstrap_binsize".toList ++ natDigits binsize
    ++ "_".toList ++ natDigits i ++ ".npz".toList

/-- The count-recovery scan of `DataSet.load`: over the archive's entry
names, keep those that start with the element type's name and do not
contain `"jackknife"`, parse `fname[len(name):-4]` with `int` (a parse
failure raises `ValueError`), and set the count to `max(indices) + 1`
(`foldl max 0` equals the maximum of a non-empty list of naturals), or
leave it 0 when no name qualified. -/
def loadStep (typename : List Char) (acc : List Nat) (fname : List Char) :
    Except DSErr (List Nat) :=
  if typename.isPrefixOf fname && !(listHasInfix "jackknife".toList fname) then
    match parseNatChars ((fname.drop typename.length).take
        ((fname.drop typename.length).length - 4)) with
    | some i => pure (acc ++ [i])
    | none => Except.error .valueError
  else pure acc

def load_count (typename : List Char) (names : List (List Char)) : Except DSErr Nat := do
  let idxs ← names.foldlM (loadStep typename) ([] : List Nat)
  pure (if idxs.isEmpty then 0 else idxs.foldl max 0 + 1)

theorem natDigitsGo_zero : ∀ (fuel : Nat) (acc : List Char), natDigitsGo fuel 0 acc = acc
  | 0, _ => rfl
  | _ + 1, _ => by simp [natDigitsGo]

theorem natDigitsGo_append : ∀ (fuel n : Nat) (acc : List Char),
    natDigitsGo fuel n acc = natDigitsGo fuel n [] ++ acc := by
  intro fuel
  induction fuel with
  | zero => intro n acc; simp [natDigitsGo]
  | succ f ih =>
      intro n acc
      by_cases h0 : n = 0
      · subst h0; simp [natDigitsGo]
      · rw [natDigitsGo, if_neg h0, natDigitsGo, if_neg h0, ih (n / 10),
          ih (n / 10) [digitChar (n % 10)]]
        simp

theorem digit_char_props (d : Nat) (hd : d < 10) :
    (digitChar d).isDigit = true ∧ (digitChar d).toNat - 48 = d := by
  interval_cases d <;> exact ⟨by decide, by decide⟩

theorem natDigitsGo_parse : ∀ (fuel n : Nat), 1 ≤ n → n ≤ fuel → ∀ (s : Nat),
    (natDigitsGo fuel n []).foldlM
        (fun acc ch => if ch.isDigit then some (acc * 10 + (ch.toNat - 48)) else none) s
      = some (s * 10 ^ (natDigitsGo fuel n []).length + n) := by
  intro fuel
  induction fuel with
  | zero => intro n h1 h2; omega
  | succ f ih =>
      intro n h1 h2 s
      have hd := digit_char_props (n % 10) (Nat.mod_lt n (by omega))
      rw [natDigitsGo, if_neg (by omega), natDigitsGo_append]
      rcases Nat.eq_zero_or_pos (n / 10) with hq | hq
      · rw [hq, natDigitsGo_zero]
        have hn10 : n % 10 = n := by
          have := Nat.div_add_mod n 10
          omega
        simp only [List.nil_append, List.foldlM_cons, List.foldlM_nil, hd.1, if_true,
          List.length_cons, List.length_nil, hd.2]
        rw [hn10]
        norm_num
      · have hle : n / 10 ≤ f := by
          have := Nat.div_lt_self (show 0 < n by omega) (show 1 < 10 by omega)
          omega
        rw [List.foldlM_append, ih (n / 10) hq hle s]
        simp only [Option.bind_eq_bind, Option.some_bind, List.foldlM_cons, List.foldlM_nil,
          hd.1, if_true, hd.2, List.length_append, List.length_cons, List.length_nil]
        have hmod := Nat.div_add_mod n 10
        have : (s * 10 ^ (natDigitsGo f (n / 10) []).length + n / 10) * 10 + n % 10
            = s * 10 ^ ((natDigitsGo f (n / 10) []).length + (0 + 1)) + n := by
          rw [pow_succ]
          ring_nf
          omega
        rw [this]
        rfl

theorem natDigitsGo_ne_nil (fuel n : Nat) (h1 : 1 ≤ n) (h2 : n ≤ fuel) :
    natDigitsGo fuel n [] ≠ [] := by
  cases fuel with
  | zero => omega
  | succ f =>
      rw [natDigitsGo, if_neg (by omega), natDigitsGo_append]
      simp

theorem natDigits_parse (n : Nat) : parseNatChars (natDigits n) = some n := by
  by_cases h0 : n = 0
  · subst h0; decide
  · rw [natDigits, if_neg h0]
    have hne := natDigitsGo_ne_nil n n (by omega) (le_refl n)
    rcases hd : natDigitsGo n n [] with _ | ⟨c, cs⟩
    · exact absurd hd hne
    · rw [parseNatChars, ← hd, natDigitsGo_parse n n (by omega) (le_refl n) 0]
      simp

theorem isPrefixOf_append (T r : List Char) : T.isPrefixOf (T ++ r) = true := by
  induction T with
  | nil => simp [List.isPrefixOf]
  | cons c rest ih => simp [List.isPrefixOf, ih]

theorem listHasInfix_append_right (needle : List Char) :
    ∀ (x y : List Char), listHasInfix needle y = true →
      listHasInfix needle (x ++ y) = true := by
  intro x
  induction x with
  | nil => intro y h; simpa using h
  | cons c rest ih =>
      intro y h
      rw [List.cons_append, listHasInfix, ih y h, Bool.or_true]

theorem listHasInfix_of_isPrefixOf (needle l : List Char)
    (h : needle.isPrefixOf l = true) : listHasInfix needle l = true := by
  cases l with
  | nil =>
      cases needle with
      | nil => rfl
      | cons c cs => simp [List.isPrefixOf] at h
  | cons c cs => rw [listHasInfix, h, Bool.true_or]

theorem jackCacheName_hasInfix (T : List Char) (binsize i : Nat) :
    listHasInfix "jackknife".toList (jackCacheName T binsize i) = true := by
  unfold jackCacheName
  have hA : "_jackknife_binsize".toList
      = '_' :: ("jackknife".toList ++ "_binsize".toList) := by decide
  rw [hA]
  rw [show T ++ ('_' :: ("jackknife".toList ++ "_binsize".toList)) ++ natDigits binsize
        ++ "_".toList ++ natDigits i ++ ".npz".toList
      = T ++ ('_' :: ("jackknife".toList ++ ("_binsize".toList ++ (natDigits binsize
        ++ ("_".toList ++ (natDigits i ++ ".npz".toList)))))) by
    simp [List.append_assoc, List.cons_append]]
  apply listHasInfix_append_right
  rw [listHasInfix]
  have hpre : ("jackknife".toList).isPrefixOf ("jackknife".toList ++ ("_binsize".toList
      ++ (natDigits binsize ++ ("_".toList ++ (natDigits i ++ ".npz".toList))))) = true :=
    isPrefixOf_append _ _
  rw [listHasInfix_of_isPrefixOf _ _ hpre, Bool.or_true]

theorem slice_datum (T mid tail : List Char) (htail : tail.length = 4) :
    ((T ++ mid ++ tail).drop T.length).take
        (((T ++ mid ++ tail).drop T.length).length - 4) = mid := by
  rw [List.append_assoc, List.drop_left, List.length_append, htail, Nat.add_sub_cancel,
    List.take_left]

theorem load_fold_datums (T : List Char) :
    ∀ (idxs : List Nat),
      (∀ i ∈ idxs, listHasInfix "jackknife".toList (datumName T i) = false) →
      ∀ (acc : List Nat),
        (idxs.map (datumName T)).foldlM (loadStep T) acc = .ok (acc ++ idxs) := by
  intro idxs
  induction idxs with
  | nil => intro _ acc; simp only [List.map_nil, List.foldlM_nil, List.append_nil]; rfl
  | cons i rest ih =>
      intro hjack acc
      have hpre : T.isPrefixOf (datumName T i) = true := by
        rw [datumName, List.append_assoc]
        exact isPrefixOf_append _ _
      have hslice : ((datumName T i).drop T.length).take
          (((datumName T i).drop T.length).length - 4) = natDigits i :=
        slice_datum T (natDigits i) ".npz".toList (by decide)
      simp only [List.map_cons, List.foldlM_cons, loadStep, hpre, hjack i (by simp),
        Bool.not_false, Bool.and_true, if_true, hslice, natDigits_parse i, pure_eq_ok,
        ok_bind]
      rw [ih (fun x hx => hjack x (List.mem_cons_of_mem i hx)) (acc ++ [i])]
      simp

theorem load_fold_jacks (T : List Char) :
    ∀ (js : List (Nat × Nat)) (acc : List Nat),
      (js.map (fun p => jackCacheName T p.1 p.2)).foldlM (loadStep T) acc = .ok acc := by
  intro js
  induction js with
  | nil => intro acc; simp only [List.map_nil, List.foldlM_nil]; rfl
  | cons p rest ih =>
      intro acc
      simp only [List.map_cons, List.foldlM_cons, loadStep, jackCacheName_hasInfix T p.1 p.2,
        Bool.not_true, Bool.and_false, if_false, pure_eq_ok, ok_bind]
      exact ih acc

/-- C6 (amended): for an archive laid out as this system writes it — the
`type` record plus datum entries named `{TypeName}{index}.npz` plus any
jackknife cache entries — `load` recovers the count as `max(index) + 1`
over the datum entries, or 0 when there are none, excluding the
jackknife cache names.  Bootstrap cache names are NOT excluded by the
scan: an archive containing one makes `int()` raise `ValueError`
(such names never occur in archives this system writes, since cache
files live in the separate `pyQCDcache` directory); the element type
name must not be a prefix of `"type"` and the datum names must not
contain `"jackknife"`. -/
theorem c6_load_count (T : List Char) (idxs : List Nat) (jacks : List (Nat × Nat))
    (htype : T.isPrefixOf "type".toList = false)
    (hjack : ∀ i ∈ idxs, listHasInfix "jackknife".toList (datumName T i) = false) :
    load_count T ("type".toList :: (idxs.map (datumName T)
        ++ jacks.map (fun p => jackCacheName T p.1 p.2)))
      = .ok (if idxs.isEmpty then 0 else idxs.foldl max 0 + 1) := by
  unfold load_count
  simp only [List.foldlM_cons, loadStep, htype, Bool.false_and, Bool.false_eq_true,
    if_false, pure_eq_ok, ok_bind]
  rw [List.foldlM_append, load_fold_datums T idxs hjack [], ok_bind,
    load_fold_jacks T jacks, ok_bind, List.nil_append]

/-- Counterexample to C6 as stated: an archive holding the type record,
one datum entry `Foo0.npz`, and one bootstrap cache entry
`Foo_bootstrap_binsize1_0.npz`.  The claim says the count scan excludes
bootstrap cache names (which would give count `0+1 = 1`); the code only
excludes names containing `"jackknife"`, so the bootstrap name passes
the filter and `int("_bootstrap_binsize1_0")` raises `ValueError`. -/
theorem c6_counterexample :
    load_count "Foo".toList
        ["type".toList, datumName "Foo".toList 0, bootCacheName "Foo".toList 1 0]
      = .error .valueError ∧
    (Except.error .valueError : Except DSErr Nat) ≠ .ok 1 := by
  exact ⟨by decide, by decide⟩

/-- Witness for C6's amended theorem: element type `Foo`, datum entries
for indices 0 and 2, one jackknife cache entry; the recovered count is
`max(0, 2) + 1 = 3`. -/
theorem c6_witness :
    ("Foo".toList.isPrefixOf "type".toList = false
      ∧ load_count "Foo".toList ("type".toList :: ([0, 2].map (datumName "Foo".toList)
          ++ [((1 : Nat), (0 : Nat))].map (fun p => jackCacheName "Foo".toList p.1 p.2)))
        = .ok (if ([0, 2] : List Nat).isEmpty then 0 else [0, 2].foldl max 0 + 1))
    ∧ load_count "Foo".toList ["type".toList, datumName "Foo".toList 0,
        datumName "Foo".toList 2, jackCacheName "Foo".toList 1 0] = .ok 3 := by
  refine ⟨⟨by decide, ?_⟩, by decide⟩
  exact c6_load_count "Foo".toList [0, 2] [(1, 0)] (by decide) (by decide)

theorem error_bind {α β : Type} (e : DSErr) (f : α → Except DSErr β) :
    ((Except.error e : Except DSErr α) >>= f) = .error e := rfl

/-- An element type descriptor: its name and whether it exposes a
`save` capability (`datum.save(filename)`). -/
structure ElemType where
  name : List Char
  hasSave : Bool
deriving DecidableEq

/-- A datum together with its runtime type tag (what `type(datum)`
inspects). -/
structure DatumV where
  dtype : ElemType
  val : ℚ
deriving DecidableEq

/-- The archive attributes `add_datum` touches. -/
structure ArchiveState where
  datatype : ElemType
  entries : List (List Char)
  num_data : Nat
deriving DecidableEq

/-- `DataSet._datum_save(filename, datum)`: tries `datum.save(filename)`;
for element types without a `save` capability the fallback branch
references the undefined name `filenaem` (a typo in the source — and the
file is opened without write mode besides), so it raises `NameError`
instead of writing the plain textual representation. -/
def datum_save (t : ElemType) : Except DSErr Unit :=
  if t.hasSave then .ok () else .error .nameError

/-- `DataSet.add_datum(datum)`: raises `TypeError` when the datum's type
differs from the archive's element type (the exception propagates before
`num_data` is touched, leaving the archive unchanged); otherwise
serializes the datum into the uniquely numbered entry
`"{TypeName}{num_data}.npz"`, appends it to the archive and increments
the count. -/
def add_datum (ds : ArchiveState) (d : DatumV) : Except DSErr ArchiveState :=
  if d.dtype ≠ ds.datatype then .error .typeError
  else
    match datum_save ds.datatype with
    | .error e => .error e
    | .ok () => .ok { ds with
        entries := ds.entries ++ [datumName ds.datatype.name ds.num_data],
        num_data := ds.num_data + 1 }

/-- C7 is a code bug: for an element type lacking a `save` capability,
`add_datum` raises `NameError` from `_datum_save`'s fallback branch
(`with open(filenaem) as f:` — `filenaem` is undefined), although the
claim (and the source's own docstring) promise a fallback to the plain
textual representation.  The type-mismatch path (error, count unchanged)
and the `save`-capable path (new entry, count incremented) behave as
claimed. -/
theorem c7_add_datum_save_bug :
    add_datum ⟨⟨"list".toList, false⟩, ["type".toList], 0⟩ ⟨⟨"list".toList, false⟩, 1⟩
      = .error .nameError
    ∧ add_datum ⟨⟨"Config".toList, true⟩, ["type".toList], 0⟩ ⟨⟨"Wrong".toList, true⟩, 1⟩
      = .error .typeError
    ∧ add_datum ⟨⟨"Config".toList, true⟩, ["type".toList], 0⟩ ⟨⟨"Config".toList, true⟩, 1⟩
      = .ok ⟨⟨"Config".toList, true⟩,
          ["type".toList, datumName "Config".toList 0], 1⟩ :=
  ⟨by decide, by decide, by decide⟩

/-- `DataSet.set_datum(index, datum)`: unconditionally raises
`NotImplementedError` (the zipfile module cannot overwrite archive
entries in place). -/
def set_datum (_index : Nat) (_datum : ℚ) : Except DSErr Unit :=
  .error .notImplementedError

/-- `DataSet.apply_function(func, args)`: for each stored index, load
the datum, apply `func`, and attempt `set_datum` with the new datum. -/
def apply_function (data : List ℚ) (func : ℚ → ℚ) : Except DSErr Unit :=
  (List.range data.length).foldlM
    (fun _ i => do
      let d ← get_datum data i
      set_datum i (func d)) ()

/-- C8 (amended): `set_datum` always raises the unsupported-operation
failure, on any archive and arguments; `apply_function` raises it for
every archive holding at least one datum, but on an archive with count
zero the loop body never runs and `apply_function` returns without
error. -/
theorem c8_unsupported (data : List ℚ) (func : ℚ → ℚ) (index : Nat) (datum : ℚ) :
    set_datum index datum = .error .notImplementedError
    ∧ (data ≠ [] → apply_function data func = .error .notImplementedError)
    ∧ apply_function [] func = .ok () := by
  refine ⟨rfl, ?_, rfl⟩
  intro hne
  cases data with
  | nil => exact absurd rfl hne
  | cons x xs =>
      unfold apply_function
      rw [List.length_cons, List.range_succ_eq_map, List.foldlM_cons]
      have h0 : get_datum (x :: xs) 0 = .ok x := rfl
      simp only [h0, ok_bind, set_datum, error_bind]

/-- Counterexample to C8 as stated: on an archive of count zero
(included by the claim's "of any count, including zero"),
`apply_function`'s loop body never executes, so it returns normally
instead of raising the unsupported-operation failure. -/
theorem c8_counterexample :
    apply_function [] (fun x => x) = .ok ()
    ∧ (Except.ok () : Except DSErr Unit) ≠ .error .notImplementedError :=
  ⟨rfl, by decide⟩

/-- Witness for C8's amended theorem on the one-datum archive `[7]`. -/
theorem c8_witness :
    ([(7 : ℚ)] : List ℚ) ≠ []
    ∧ set_datum 0 7 = .error .notImplementedError
    ∧ apply_function [(7 : ℚ)] (fun x => x + 1) = .error .notImplementedError
    ∧ apply_function [] (fun x => x + 1) = .ok () := by
  have h := c8_unsupported [(7 : ℚ)] (fun x => x + 1) 0 7
  exact ⟨by simp, h.1, h.2.1 (by simp), h.2.2⟩

/-- The iteration state: the stored data and the `self.iteration`
counter, which `__init__` sets to 0 once. -/
structure IterState where
  data : List ℚ
  iteration : Nat
deriving DecidableEq

/-- `DataSet.__iter__`: returns `self` — requesting an iterator does not
reset the counter. -/
def ds_iter (s : IterState) : IterState := s

/-- `DataSet.next()`: raise `StopIteration` (modelled as `none`) once
`iteration >= num_data`; otherwise increment `iteration` and return
`self[iteration - 1]`. -/
def ds_next (s : IterState) : Option (ℚ × IterState) :=
  if s.data.length ≤ s.iteration then none
  else
    match get_datum s.data s.iteration with
    | .ok v => some (v, ⟨s.data, s.iteration + 1⟩)
    | .error _ => none

/-- Run up to `fuel` iteration steps, collecting the yielded data (what
a Python `for` loop over the object observes). -/
def drain : Nat → IterState → List ℚ × IterState
  | 0, s => ([], s)
  | fuel + 1, s =>
      match ds_next s with
      | none => ([], s)
      | some (v, s2) =>
          let r := drain fuel s2
          (v :: r.1, r.2)

theorem drain_from (l : List ℚ) : ∀ (n i : Nat), i + n = l.length →
    drain n ⟨l, i⟩ = (l.drop i, ⟨l, l.length⟩) := by
  intro n
  induction n with
  | zero =>
      intro i hi
      have hii : i = l.length := by omega
      subst hii
      simp [drain, List.drop_length]
  | succ m ih =>
      intro i hi
      have hlt : i < l.length := by omega
      rw [drain]
      have hnext : ds_next ⟨l, i⟩ = some (l.getD i 0, ⟨l, i + 1⟩) := by
        unfold ds_next
        simp only [if_neg (show ¬ l.length ≤ i by omega), get_datum_ok l i hlt]
      rw [hnext]
      simp only [ih (i + 1) (by omega)]
      have hdrop : l.drop i = l.getD i 0 :: l.drop (i + 1) := by
        rw [List.drop_eq_getElem_cons hlt]
        congr 1
        rw [List.getD_eq_getElem?_getD, List.getElem?_eq_getElem hlt]
        rfl
      rw [hdrop]

/-- C10: iteration over an archive is one-shot: the counter is set to 0
only at construction and `__iter__` returns `self` without resetting it,
so the first full iteration over a fresh archive yields the stored data
at indices `0..count-1` in order and then terminates (the counter
standing at `count`), and any further attempt to iterate the same
instance yields no items at all, for any number of `next` calls. -/
theorem c10_iteration_one_shot (data : List ℚ) (k : Nat) :
    drain data.length (ds_iter ⟨data, 0⟩) = (data, ⟨data, data.length⟩)
    ∧ drain k (ds_iter ⟨data, data.length⟩) = ([], ⟨data, data.length⟩) := by
  constructor
  · have h := drain_from data data.length 0 (by omega)
    simpa [ds_iter] using h
  · cases k with
    | zero => rfl
    | succ m =>
        unfold ds_iter drain ds_next
        simp

end DataSet
